import Mathlib

/-!
Verification development for the `tech.digest` PDF generator
(`src/scripts/build_digest_pdf.py`).

The Python source is shallowly embedded below:

* byte buffers are `List Nat` (each entry one byte, 0..255);
* Python `str` values are Lean `String`s, or `List Nat` of code points
  where the code iterates over characters;
* Python `dict`s are insertion-ordered association lists; a lookup
  returns the value of the *last* write for a key (`dget`), an update
  replaces in place or appends (`dset`), mirroring CPython semantics;
* machine integers are `Nat`/`Int` with explicit `% 2^w` where the
  source masks (`& 0xFFFF`), and signed fields are decoded explicitly;
* Python `float` arithmetic is modelled exactly over `ℚ`; every claim
  settled on this model only uses values and comparisons that are far
  from rounding boundaries, or is insensitive to the rounding function;
* fallible code (`struct.error`, `KeyError`, `IndexError`,
  `ZeroDivisionError`, `RuntimeError`) returns `Except PyErr _` or
  `Option _`, with the first raising statement deciding the error.
-/

set_option maxRecDepth 10000

namespace TechDigest

/-! ### Byte and string primitives -/

/-- Code points of a Lean string.  The writer's fixed markers are pure
ASCII, where code points and bytes coincide. -/
def asciiBytes (s : String) : List Nat := s.data.map Char.toNat

/-- ASCII digits (most significant first) of `n`, as Python's `str(n)`
produces for a nonnegative integer. -/
def decDigitsAscii (n : Nat) : List Nat := (Nat.digits 10 n).reverse.map (· + 48)

/-- Byte rendering of Python `str(n)` for `n ≥ 0` (`"0"` for zero). -/
def natRepr (n : Nat) : List Nat := if n = 0 then [48] else decDigitsAscii n

/-- Zero padding to ten digits, Python's `f"{n:010d}"` (wider numbers
keep all their digits, exactly as the format spec behaves). -/
def pad10 (n : Nat) : List Nat := List.replicate (10 - (natRepr n).length) 48 ++ natRepr n

/-- Value of an ASCII decimal digit string, the number a reader of the
xref section recovers from a recorded offset field. -/
def decodeDecimal (l : List Nat) : Nat := l.foldl (fun a d => 10 * a + (d - 48)) 0

/-! ### Document object writer (`PDFDocument.write`, lines 354-372)

`PDFDocument` keeps `objects : List bytes`; `write` emits a fixed
two-line header, every object as `"<id> 0 obj\n" ++ obj ++ "\nendobj\n"`
recording `fh.tell()` (the running byte count) just before each object,
then the xref section and the trailer. -/

/-- `b"%PDF-1.6\n%\xE2\xE3\xCF\xD3\n"`, the 15-byte file header. -/
def pdfMagic : List Nat :=
  [0x25, 0x50, 0x44, 0x46, 0x2D, 0x31, 0x2E, 0x36, 0x0A,
   0x25, 0xE2, 0xE3, 0xCF, 0xD3, 0x0A]

/-- `"<id> 0 obj\n"`, the header line the xref offsets must land on. -/
def objHeaderMark (id : Nat) : List Nat := natRepr id ++ asciiBytes " 0 obj\n"

/-- One serialized object: header line, body bytes, `"\nendobj\n"`. -/
def serObj (id : Nat) (obj : List Nat) : List Nat :=
  objHeaderMark id ++ obj ++ asciiBytes "\nendobj\n"

/-- Concatenated serialization of the object list, ids counting up. -/
def objsBytes : Nat → List (List Nat) → List Nat
  | _, [] => []
  | id, o :: os => serObj id o ++ objsBytes (id + 1) os

/-- The offsets `write` records via `fh.tell()`: byte position of each
object's header line, starting from `base` (the magic header's length)
with ids counting up from `id`. -/
def offsetsFrom : Nat → Nat → List (List Nat) → List Nat
  | _, _, [] => []
  | base, id, o :: os => base :: offsetsFrom (base + (serObj id o).length) (id + 1) os

/-- One xref table entry, `f"{offset:010d} 00000 n \n"`. -/
def xrefRecord (off : Nat) : List Nat := pad10 off ++ asciiBytes " 00000 n \n"

/-- The cross-reference section: `xref`, subsection line, free-list
head, then one 20-byte record per object in id order. -/
def xrefSection (objs : List (List Nat)) : List Nat :=
  asciiBytes "xref\n0 " ++ natRepr (objs.length + 1) ++ asciiBytes "\n" ++
    asciiBytes "0000000000 65535 f \n" ++
    ((offsetsFrom pdfMagic.length 1 objs).map xrefRecord).flatten

/-- Trailer bytes: `"\n".join(["trailer", dict, "startxref", str(pos),
"%%EOF"])`.  Extra trailer entries are byte-modelled by their code
points; Python would reject non-ASCII entries with a
`UnicodeEncodeError`, and no claim reads the trailer suffix. -/
def trailerBytes (root count xrefPos : Nat) (extra : List (String × String)) : List Nat :=
  asciiBytes "trailer << /Size " ++ natRepr (count + 1) ++
    asciiBytes " /Root " ++ natRepr root ++ asciiBytes " 0 R" ++
    (extra.map (fun kv => asciiBytes (" /" ++ kv.1 ++ " " ++ kv.2))).flatten ++
    asciiBytes " >>\nstartxref\n" ++ natRepr xrefPos ++ asciiBytes "\n%%EOF"

/-- Full output byte stream of `PDFDocument.write`. -/
def pdfWrite (objs : List (List Nat)) (root : Nat) (extra : List (String × String)) : List Nat :=
  let body := pdfMagic ++ objsBytes 1 objs
  body ++ xrefSection objs ++ trailerBytes root objs.length body.length extra

/-! ### C1 supporting lemmas -/

theorem foldl_decode_replicate48 (m : Nat) :
    List.foldl (fun a d => 10 * a + (d - 48)) 0 (List.replicate m 48) = 0 := by
  induction m with
  | zero => rfl
  | succ n ih => simpa [List.replicate_succ] using ih

theorem foldl_decode_reverse (L : List Nat) (a : Nat) :
    (L.reverse).foldl (fun a d => 10 * a + d) a = a * 10 ^ L.length + Nat.ofDigits 10 L := by
  induction L generalizing a with
  | nil => simp [Nat.ofDigits]
  | cons d T ih =>
      simp only [List.reverse_cons, List.foldl_append, List.foldl_cons, List.foldl_nil,
        Nat.ofDigits_cons, ih, List.length_cons]
      ring

theorem decode_natRepr (n : Nat) :
    List.foldl (fun a d => 10 * a + (d - 48)) 0 (natRepr n) = n := by
  by_cases h : n = 0
  · simp [natRepr, h]
  · have hmap : List.foldl (fun a d => 10 * a + (d - 48)) 0 (decDigitsAscii n)
        = List.foldl (fun a d => 10 * a + d) 0 ((Nat.digits 10 n).reverse) := by
      simp [decDigitsAscii, ← List.map_reverse, List.foldl_map]
    rw [natRepr, if_neg h, hmap, foldl_decode_reverse, Nat.ofDigits_digits]
    simp

theorem decode_pad10 (n : Nat) : decodeDecimal (pad10 n) = n := by
  unfold decodeDecimal pad10
  rw [List.foldl_append, foldl_decode_replicate48, decode_natRepr]

theorem objsBytes_cons (id : Nat) (o : List Nat) (os : List (List Nat)) :
    objsBytes id (o :: os) = serObj id o ++ objsBytes (id + 1) os := rfl

theorem take_len_append (l₁ l₂ : List Nat) : (l₁ ++ l₂).take l₁.length = l₁ :=
  List.take_left l₁ l₂

theorem getD_map_lt (f : Nat → List Nat) (l : List Nat) :
    ∀ k, k < l.length → (l.map f).getD k [] = f (l.getD k 0) := by
  induction l with
  | nil => intro k hk; simp at hk
  | cons a t ih =>
      intro k hk
      cases k with
      | zero => rfl
      | succ k' => simpa using ih k' (by simpa using hk)

/-- Seeking to a recorded offset inside the full stream lands exactly on
the matching header line (generalized over the starting position). -/
theorem offsets_land_on_marks (objs : List (List Nat)) :
    ∀ (k base id : Nat) (pre suff : List Nat), pre.length = base → k < objs.length →
    ((pre ++ objsBytes id objs ++ suff).drop ((offsetsFrom base id objs).getD k 0)).take
        (objHeaderMark (id + k)).length = objHeaderMark (id + k) := by
  induction objs with
  | nil => intro k _ _ _ _ _ hk; exact absurd hk (by simp)
  | cons o os ih =>
      intro k base id pre suff hpre hk
      cases k with
      | zero =>
          have hdrop : (pre ++ objsBytes id (o :: os) ++ suff).drop base
              = objsBytes id (o :: os) ++ suff := by
            rw [List.append_assoc, ← hpre, List.drop_left]
          simp only [offsetsFrom, List.getD_cons_zero, hdrop, Nat.add_zero]
          rw [objsBytes_cons, serObj]
          rw [show objHeaderMark id ++ o ++ asciiBytes "\nendobj\n" ++ objsBytes (id + 1) os ++ suff
              = objHeaderMark id ++ (o ++ asciiBytes "\nendobj\n" ++ objsBytes (id + 1) os ++ suff) by
            simp [List.append_assoc]]
          exact take_len_append _ _
      | succ k' =>
          have hlt : k' < os.length := by simpa using hk
          have := ih k' (base + (serObj id o).length) (id + 1) (pre ++ serObj id o) suff
            (by simp [hpre]) hlt
          have hassoc : pre ++ objsBytes id (o :: os) ++ suff
              = (pre ++ serObj id o) ++ objsBytes (id + 1) os ++ suff := by
            rw [objsBytes_cons]; simp [List.append_assoc]
          have hidx : id + 1 + k' = id + (k' + 1) := by omega
          simp only [offsetsFrom, List.getD_cons_succ, hassoc]
          rw [← hidx]
          exact this

/-- C1.  Writer offset integrity: for every document and every object id
`k+1`, the offset recorded for it (both the value `write` records via
`fh.tell()` and the number encoded by the ten-digit xref field) is the
exact byte position of that object's `"<id> 0 obj"` header line in the
emitted stream, and the xref section's record for it is precisely the
20-byte rendering of that offset. -/
theorem writer_offset_integrity (objs : List (List Nat)) (root : Nat)
    (extra : List (String × String)) (k : Nat) (hk : k < objs.length) :
    decodeDecimal (pad10 ((offsetsFrom pdfMagic.length 1 objs).getD k 0))
        = (offsetsFrom pdfMagic.length 1 objs).getD k 0 ∧
    ((offsetsFrom pdfMagic.length 1 objs).map xrefRecord).getD k []
        = xrefRecord ((offsetsFrom pdfMagic.length 1 objs).getD k 0) ∧
    ((pdfWrite objs root extra).drop ((offsetsFrom pdfMagic.length 1 objs).getD k 0)).take
        (objHeaderMark (k + 1)).length = objHeaderMark (k + 1) := by
  have hlen : k < (offsetsFrom pdfMagic.length 1 objs).length := by
    have : ∀ (os : List (List Nat)) (b i : Nat), (offsetsFrom b i os).length = os.length := by
      intro os
      induction os with
      | nil => intro b i; rfl
      | cons o os' ih => intro b i; simp [offsetsFrom, ih]
    rw [this]; exact hk
  refine ⟨decode_pad10 _, ?_, ?_⟩
  · exact getD_map_lt xrefRecord _ k hlen
  · have := offsets_land_on_marks objs k pdfMagic.length 1 pdfMagic
      (xrefSection objs ++ trailerBytes root objs.length (pdfMagic ++ objsBytes 1 objs).length extra)
      rfl hk
    have hgoal : pdfWrite objs root extra
        = pdfMagic ++ objsBytes 1 objs ++
          (xrefSection objs ++ trailerBytes root objs.length (pdfMagic ++ objsBytes 1 objs).length extra) := by
      simp [pdfWrite, List.append_assoc]
    rw [hgoal, Nat.add_comm 1 k] at *
    exact this

/-- Witness for C1 on a concrete two-object document. -/
theorem writer_offset_integrity_witness :
    (1 : Nat) < 2 ∧
    ((pdfWrite [[60, 60, 62, 62], [60, 62]] 1 []).drop
        ((offsetsFrom pdfMagic.length 1 [[60, 60, 62, 62], [60, 62]]).getD 1 0)).take
        (objHeaderMark 2).length = objHeaderMark 2 :=
  ⟨by decide,
   (writer_offset_integrity [[60, 60, 62, 62], [60, 62]] 1 [] 1 (by decide)).2.2⟩

/-! ### TrueType parser (`TrueTypeFont`, lines 25-172)

Byte reads mirror `struct.unpack`: a read of `n` bytes at `pos` from a
buffer succeeds exactly when `pos + n` bytes exist (a Python slice
clamps, and `unpack` then raises `struct.error` on a short slice). -/

def u16 (data : List Nat) (i : Nat) : Nat := data.getD i 0 * 256 + data.getD (i + 1) 0

def u16ok (data : List Nat) (i : Nat) : Option Nat :=
  if i + 2 ≤ data.length then some (u16 data i) else none

def u32 (data : List Nat) (i : Nat) : Nat :=
  ((data.getD i 0 * 256 + data.getD (i + 1) 0) * 256 + data.getD (i + 2) 0) * 256 +
    data.getD (i + 3) 0

def u32ok (data : List Nat) (i : Nat) : Option Nat :=
  if i + 4 ≤ data.length then some (u32 data i) else none

/-- Signed 16-bit value of a raw big-endian `uint16` (`struct` format `h`). -/
def i16 (v : Nat) : Int := if v < 32768 then (v : Int) else (v : Int) - 65536

/-- Signed 32-bit value of a raw big-endian `uint32` (`struct` format `l`). -/
def i32 (v : Nat) : Int := if v < 2147483648 then (v : Int) else (v : Int) - 4294967296

/-- Python slice `data[a:b]` for `0 ≤ a ≤ b` (clamping at the end). -/
def pySlice (data : List Nat) (a b : Nat) : List Nat := (data.drop a).take (b - a)

/-- Python `dict` lookup over an insertion-ordered write list: the value
of the last write wins, as re-assignment overwrites. -/
def dget {α β : Type} [DecidableEq α] : List (α × β) → α → Option β
  | [], _ => none
  | p :: rest, k =>
      match dget rest k with
      | some v => some v
      | none => if p.1 = k then some p.2 else none

inductive PyErr where
  | keyError (tag : String)
  | structError
  | indexError
  | unicodeDecodeError
  | noUnicodeCmap
  | unsupportedCmapFormat (fmt : Nat)
  deriving DecidableEq

instance {ε α : Type} [DecidableEq ε] [DecidableEq α] : DecidableEq (Except ε α) := fun x y =>
  match x, y with
  | .error a, .error b =>
      if h : a = b then isTrue (by rw [h])
      else isFalse (fun hc => h (Except.error.inj hc))
  | .ok a, .ok b =>
      if h : a = b then isTrue (by rw [h])
      else isFalse (fun hc => h (Except.ok.inj hc))
  | .error _, .ok _ => isFalse (fun hc => Except.noConfusion hc)
  | .ok _, .error _ => isFalse (fun hc => Except.noConfusion hc)

/-- `n` consecutive big-endian `uint16`s at `pos` (one `struct.unpack`
of a `2n`-byte slice in the source; it fails iff the buffer is short). -/
def readU16s (data : List Nat) : Nat → Nat → Option (List Nat)
  | _, 0 => some []
  | pos, Nat.succ n =>
      match u16ok data pos with
      | none => none
      | some v =>
          match readU16s data (pos + 2) n with
          | none => none
          | some vs => some (v :: vs)

/-- `tag.decode("ascii")` on the 4 tag bytes. -/
def tagOfBytes (bs : List Nat) : Option String :=
  if bs.all (· < 128) then some (String.mk (bs.map Char.ofNat)) else none

/-- The `numTables` 16-byte records after the 12-byte offset directory
header (`_parse_offset_table`, lines 42-48). -/
def readTableRecords (data : List Nat) : Nat → Nat → Except PyErr (List (String × Nat × Nat))
  | _, 0 => .ok []
  | pos, Nat.succ n =>
      if pos + 16 ≤ data.length then
        match tagOfBytes (pySlice data pos (pos + 4)) with
        | none => .error .unicodeDecodeError
        | some tag =>
            match readTableRecords data (pos + 16) n with
            | .error e => .error e
            | .ok rest => .ok ((tag, u32 data (pos + 8), u32 data (pos + 12)) :: rest)
      else .error .structError

def parseTables (data : List Nat) : Except PyErr (List (String × Nat × Nat)) :=
  if 12 ≤ data.length then readTableRecords data 12 (u16 data 4)
  else .error .structError

/-- `self.tables[tag]`: a missing table raises `KeyError`. -/
def tableFor (tables : List (String × Nat × Nat)) (tag : String) : Except PyErr (Nat × Nat) :=
  match dget tables tag with
  | some v => .ok v
  | none => .error (.keyError tag)

/-- `_parse_head` (lines 50-56): `unitsPerEm` at 18, bbox at 36. -/
def parseHead (data : List Nat) (tables : List (String × Nat × Nat)) :
    Except PyErr (Nat × Int × Int × Int × Int) := do
  let (off, len) ← tableFor tables "head"
  let table := pySlice data off (off + len)
  if 20 ≤ table.length then
    if 44 ≤ table.length then
      .ok (u16 table 18, i16 (u16 table 36), i16 (u16 table 38),
           i16 (u16 table 40), i16 (u16 table 42))
    else .error .structError
  else .error .structError

/-- `_parse_hhea` (lines 58-63): vertical metrics at 4, `numHMetrics` at 34. -/
def parseHhea (data : List Nat) (tables : List (String × Nat × Nat)) :
    Except PyErr (Int × Int × Int × Nat) := do
  let (off, len) ← tableFor tables "hhea"
  let table := pySlice data off (off + len)
  if 10 ≤ table.length then
    if 36 ≤ table.length then
      .ok (i16 (u16 table 4), i16 (u16 table 6), i16 (u16 table 8), u16 table 34)
    else .error .structError
  else .error .structError

/-- `_parse_maxp` (lines 65-69): `numGlyphs` at 4. -/
def parseMaxp (data : List Nat) (tables : List (String × Nat × Nat)) : Except PyErr Nat := do
  let (off, len) ← tableFor tables "maxp"
  let table := pySlice data off (off + len)
  if 6 ≤ table.length then .ok (u16 table 4) else .error .structError

/-- The explicit advance widths: `numHMetrics` pairs of 4 bytes each,
keeping the advance and dropping the left side bearing. -/
def readHmtxWidths (table : List Nat) : Nat → Nat → Except PyErr (List Nat)
  | _, 0 => .ok []
  | pos, Nat.succ n =>
      if pos + 4 ≤ table.length then
        match readHmtxWidths table (pos + 4) n with
        | .error e => .error e
        | .ok rest => .ok (u16 table pos :: rest)
      else .error .structError

/-- `_parse_hmtx` (lines 71-83): read the explicit widths, then extend
with `widths[-1]` while `numGlyphs > numHMetrics` (`widths[-1]` raises
`IndexError` when no explicit width exists). -/
def parseHmtx (data : List Nat) (tables : List (String × Nat × Nat))
    (numGlyphs numH : Nat) : Except PyErr (List Nat) := do
  let (off, len) ← tableFor tables "hmtx"
  let table := pySlice data off (off + len)
  let ws ← readHmtxWidths table 0 numH
  if numH < numGlyphs then
    match ws.getLast? with
    | none => .error .indexError
    | some lw => .ok (ws ++ List.replicate (numGlyphs - numH) lw)
  else .ok ws

/-! #### cmap format 4 (`_parse_cmap_format4`, lines 107-140) -/

structure F4Sub where
  subLength : Nat
  segCount : Nat
  endCodes : List Nat
  startCodes : List Nat
  deltas : List Nat
  ros : List Nat
  iroPos : Nat
  deriving DecidableEq

/-- Header and the four parallel segment arrays.  `deltas` keeps the raw
`uint16`; the source reads it signed but only ever uses it inside
`(x + delta) & 0xFFFF`, which `i16` recovers below. -/
def parseF4 (data : List Nat) (offset : Nat) : Except PyErr F4Sub :=
  match readU16s data (offset + 2) 3 with
  | some [subLength, _language, segCountX2] =>
      let segCount := segCountX2 / 2
      match readU16s data (offset + 14) segCount,
            readU16s data (offset + 14 + 2 * segCount + 2) segCount,
            readU16s data (offset + 14 + 2 * segCount + 2 + 2 * segCount) segCount,
            readU16s data (offset + 14 + 2 * segCount + 2 + 2 * segCount + 2 * segCount)
              segCount with
      | some endCodes, some startCodes, some deltas, some ros =>
          .ok ⟨subLength, segCount, endCodes, startCodes, deltas, ros,
               offset + 14 + 2 * segCount + 2 + 2 * segCount + 2 * segCount⟩
      | _, _, _, _ => .error .structError
  | _ => .error .structError

/-- One codepoint of one segment: the direct delta rule at
`idRangeOffset = 0`, otherwise the indirect lookup, skipped (`continue`)
when it points at or past the subtable's declared end, and raising
`struct.error` when it points past the physical buffer. -/
def f4Glyph (data : List Nat) (offset subLength iroPos : Nat)
    (i delta ro start code : Nat) : Except PyErr (Option (Nat × Nat)) :=
  if ro = 0 then
    .ok (some (code, (((code : Int) + i16 delta) % 65536).toNat))
  else if offset + subLength ≤ iroPos + 2 * i + ro + 2 * (code - start) then .ok none
  else
    match u16ok data (iroPos + 2 * i + ro + 2 * (code - start)) with
    | none => .error .structError
    | some gi =>
        .ok (some (code, if gi = 0 then 0 else (((gi : Int) + i16 delta) % 65536).toNat))

def f4SegWrites (data : List Nat) (offset subLength iroPos : Nat)
    (i delta ro start : Nat) : List Nat → Except PyErr (List (Nat × Nat))
  | [] => .ok []
  | code :: rest =>
      match f4Glyph data offset subLength iroPos i delta ro start code with
      | .error e => .error e
      | .ok none => f4SegWrites data offset subLength iroPos i delta ro start rest
      | .ok (some p) =>
          match f4SegWrites data offset subLength iroPos i delta ro start rest with
          | .error e => .error e
          | .ok l => .ok (p :: l)

/-- Segment tuples `(i, start, end, delta, idRangeOffset)` in loop order. -/
def f4Segs (t : F4Sub) : List (Nat × Nat × Nat × Nat × Nat) :=
  (List.range t.segCount).map fun i =>
    (i, t.startCodes.getD i 0, t.endCodes.getD i 0, t.deltas.getD i 0, t.ros.getD i 0)

def f4Loop (data : List Nat) (offset subLength iroPos : Nat) :
    List (Nat × Nat × Nat × Nat × Nat) → Except PyErr (List (Nat × Nat))
  | [] => .ok []
  | (i, start, endc, delta, ro) :: rest =>
      match f4SegWrites data offset subLength iroPos i delta ro start
            (List.range' start (endc + 1 - start)) with
      | .error e => .error e
      | .ok l =>
          match f4Loop data offset subLength iroPos rest with
          | .error e => .error e
          | .ok ls => .ok (l ++ ls)

/-- The dict write list built by `_parse_cmap_format4`; `dget` on it is
the final `cmap[code]`. -/
def parseCmapFormat4 (data : List Nat) (offset : Nat) : Except PyErr (List (Nat × Nat)) := do
  let t ← parseF4 data offset
  f4Loop data offset t.subLength t.iroPos (f4Segs t)

/-! #### cmap format 12 (`_parse_cmap_format12`, lines 142-153) -/

def readGroups (data : List Nat) : Nat → Nat → Except PyErr (List (Nat × Nat × Nat))
  | _, 0 => .ok []
  | pos, Nat.succ n =>
      match u32ok data pos, u32ok data (pos + 4), u32ok data (pos + 8) with
      | some s, some e, some g =>
          match readGroups data (pos + 12) n with
          | .error err => .error err
          | .ok rest => .ok ((s, e, g) :: rest)
      | _, _, _ => .error .structError

/-- Writes of one group: `cmap[code] = startGlyph + (code - startChar)`. -/
def groupWrites (g : Nat × Nat × Nat) : List (Nat × Nat) :=
  (List.range' g.1 (g.2.1 + 1 - g.1)).map fun code => (code, g.2.2 + (code - g.1))

def parseCmapFormat12 (data : List Nat) (offset : Nat) : Except PyErr (List (Nat × Nat)) :=
  match u16ok data offset, u16ok data (offset + 2) with
  | some _fmt, some _reserved =>
      match u32ok data (offset + 4), u32ok data (offset + 8), u32ok data (offset + 12) with
      | some _length, some _lang, some numGroups =>
          match readGroups data (offset + 16) numGroups with
          | .error e => .error e
          | .ok gs => .ok (gs.map groupWrites).flatten
      | _, _, _ => .error .structError
  | _, _ => .error .structError

/-! #### cmap subtable directory (`_parse_cmap`, lines 85-105) -/

/-- Scan of the subtable records; stops at the first record with
platform 3 and encoding 1 or 10 (the source `break`s there). -/
def findUnicodeSub (table : List Nat) : Nat → Nat → Except PyErr (Option Nat)
  | _, 0 => .ok none
  | i, Nat.succ n =>
      if 12 + 8 * i ≤ table.length then
        let pid := u16 table (4 + 8 * i)
        let eid := u16 table (6 + 8 * i)
        let so := u32 table (8 + 8 * i)
        if pid = 3 ∧ (eid = 1 ∨ eid = 10) then .ok (some so)
        else findUnicodeSub table (i + 1) n
      else .error .structError

def parseCmap (data : List Nat) (tables : List (String × Nat × Nat)) :
    Except PyErr (List (Nat × Nat)) := do
  let (off, len) ← tableFor tables "cmap"
  let table := pySlice data off (off + len)
  if 4 ≤ table.length then
    let numTables := u16 table 2
    match findUnicodeSub table 0 numTables with
    | .error e => .error e
    | .ok none => .error .noUnicodeCmap
    | .ok (some so) =>
        match u16ok data (off + so) with
        | none => .error .structError
        | some 4 => parseCmapFormat4 data (off + so)
        | some 12 => parseCmapFormat12 data (off + so)
        | some fmt => .error (.unsupportedCmapFormat fmt)
  else .error .structError

/-- `_parse_os2` (lines 155-164): cap height read only when
`version ≥ 2 and len(table) ≥ 88`, else the typo ascender. -/
def parseOS2 (data : List Nat) (tables : List (String × Nat × Nat)) :
    Except PyErr (Int × Int × Int) := do
  let (off, len) ← tableFor tables "OS/2"
  let table := pySlice data off (off + len)
  if 2 ≤ table.length then
    let version := u16 table 0
    if 72 ≤ table.length then
      let ta := i16 (u16 table 68)
      let td := i16 (u16 table 70)
      if 2 ≤ version ∧ 88 ≤ table.length then
        if 90 ≤ table.length then .ok (ta, td, i16 (u16 table 88))
        else .error .structError
      else .ok (ta, td, ta)
    else .error .structError
  else .error .structError

/-- `_parse_post` (lines 166-172): optional table, angle 0 if absent. -/
def parsePost (data : List Nat) (tables : List (String × Nat × Nat)) : Except PyErr ℚ :=
  match dget tables "post" with
  | none => .ok 0
  | some (off, len) =>
      let table := pySlice data off (off + len)
      if 8 ≤ table.length then .ok ((i32 (u32 table 4) : ℚ) / 65536)
      else .error .structError

structure FontTables where
  unitsPerEm : Nat
  ascender : Int
  descender : Int
  lineGap : Int
  numHMetrics : Nat
  numGlyphs : Nat
  advanceWidths : List Nat
  cmap : List (Nat × Nat)
  sTypoAscender : Int
  sTypoDescender : Int
  sCapHeight : Int
  xMin : Int
  yMin : Int
  xMax : Int
  yMax : Int
  italicAngle : ℚ
  deriving DecidableEq

/-- `TrueTypeFont.__init__` (lines 28-40): the parse pipeline in source
order; the first raising step decides the error. -/
def trueTypeParse (data : List Nat) : Except PyErr FontTables := do
  let tables ← parseTables data
  let (unitsPerEm, xMin, yMin, xMax, yMax) ← parseHead data tables
  let (ascender, descender, lineGap, numH) ← parseHhea data tables
  let numGlyphs ← parseMaxp data tables
  let advanceWidths ← parseHmtx data tables numGlyphs numH
  let cmap ← parseCmap data tables
  let (ta, td, ch) ← parseOS2 data tables
  let angle ← parsePost data tables
  .ok ⟨unitsPerEm, ascender, descender, lineGap, numH, numGlyphs, advanceWidths,
       cmap, ta, td, ch, xMin, yMin, xMax, yMax, angle⟩

/-! ### Glyph subset encoder (`FontEncoder`, lines 175-318)

The four mutable dict/list fields of `FontEncoder` become an explicit
state record; text arguments are lists of code points. -/

structure FontEncSt where
  usedChars : List Nat
  charSet : List Nat
  charToGid : List (Nat × Nat)
  usedGlyphs : List Nat
  deriving DecidableEq

def initEnc : FontEncSt := ⟨[], [], [], []⟩

/-- `_glyph_for_char`: `cmap.get(code, 0)`. -/
def glyphForChar (font : FontTables) (c : Nat) : Nat := (dget font.cmap c).getD 0

/-- The body of `ensure_text`'s loop for one character (lines 193-199).
`char_set` and `used_glyphs` are dicts with `None` values, so only their
insertion-ordered key lists are modelled. -/
def registerChar (font : FontTables) (st : FontEncSt) (c : Nat) : FontEncSt :=
  if c ∈ st.charSet then st
  else
    let g := glyphForChar font c
    ⟨st.usedChars ++ [c], st.charSet ++ [c], st.charToGid ++ [(c, g)],
     if g ∈ st.usedGlyphs then st.usedGlyphs else st.usedGlyphs ++ [g]⟩

def ensureText (font : FontTables) (st : FontEncSt) (text : List Nat) : FontEncSt :=
  text.foldl (registerChar font) st

/-- The summation loop of `measure_text` (lines 201-209).  The updated
state is always returned; the first component is `none` when the
iteration raises (`KeyError` on an inconsistent map, `IndexError` on a
glyph id at or past the end of `advance_widths`), in which case the
mutations already performed persist, as they do on the Python object. -/
def measureChars (font : FontTables) : List Nat → FontEncSt → Nat → Option Nat × FontEncSt
  | [], st, total => (some total, st)
  | c :: cs, st, total =>
      let st1 := if (dget st.charToGid c).isSome then st else ensureText font st [c]
      match dget st1.charToGid c with
      | none => (none, st1)
      | some g =>
          if g < font.advanceWidths.length then
            measureChars font cs st1 (total + font.advanceWidths.getD g 0)
          else (none, st1)

/-- `measure_text`: total advance scaled by `size / unitsPerEm`; the
division raises `ZeroDivisionError` when `unitsPerEm = 0`. -/
def measureText (font : FontTables) (st : FontEncSt) (text : List Nat) (size : ℚ) :
    Option (ℚ × FontEncSt) :=
  match measureChars font text st 0 with
  | (none, _) => none
  | (some total, st1) =>
      if font.unitsPerEm = 0 then none
      else some ((total : ℚ) / (font.unitsPerEm : ℚ) * size, st1)

/-- State-free width of a text under a consistent registration map:
every character contributes `advanceWidths[cmap.get(code, 0)]`. -/
def pureWidth (font : FontTables) (text : List Nat) : Nat :=
  (text.map fun c => font.advanceWidths.getD (glyphForChar font c) 0).sum

def pureMeasure (font : FontTables) (text : List Nat) (size : ℚ) : ℚ :=
  (pureWidth font text : ℚ) / (font.unitsPerEm : ℚ) * size

/-- One public `FontEncoder` call, as far as the state is concerned
(`encode_text` only calls `ensure_text` when the text is nonempty and
mutates nothing else). -/
inductive EncCall where
  | ensure (text : List Nat)
  | measure (text : List Nat) (size : ℚ)
  | encode (text : List Nat)

def applyCall (font : FontTables) (st : FontEncSt) : EncCall → FontEncSt
  | .ensure text => ensureText font st text
  | .measure text _ => (measureChars font text st 0).2
  | .encode text => if text = [] then st else ensureText font st text

def applyCalls (font : FontTables) (calls : List EncCall) : FontEncSt :=
  calls.foldl (applyCall font) initEnc

/-- The characters a `measure_text` call actually processes before
returning or raising, in order. -/
def measureScanned (font : FontTables) : List Nat → FontEncSt → List Nat
  | [], _ => []
  | c :: cs, st =>
      let st1 := if (dget st.charToGid c).isSome then st else ensureText font st [c]
      match dget st1.charToGid c with
      | none => [c]
      | some g =>
          if g < font.advanceWidths.length then c :: measureScanned font cs st1
          else [c]

def callScanned (font : FontTables) (st : FontEncSt) : EncCall → List Nat
  | .ensure text => text
  | .measure text _ => measureScanned font text st
  | .encode text => text

/-- Concatenation of the character streams the calls processed. -/
def seenStream (font : FontTables) : List EncCall → FontEncSt → List Nat
  | [], _ => []
  | c :: rest, st => callScanned font st c ++ seenStream font rest (applyCall font st c)

/-- First occurrence of each element, keeping first-seen order. -/
def firstDedup (l : List Nat) : List Nat :=
  l.foldl (fun acc c => if c ∈ acc then acc else acc ++ [c]) []

/-! #### Embedded-artifact computations used by `build_pdf_objects` -/

/-- Python `round` on an exact rational: round half to even. -/
def pyRound (q : ℚ) : Int :=
  let f := ⌊q⌋
  let r := q - (f : ℚ)
  if r < 1 / 2 then f
  else if 1 / 2 < r then f + 1
  else if f % 2 = 0 then f else f + 1

/-- `_widths_1000` (lines 218-223) over the `used_glyphs` key list:
`int(round(advance * 1000 / unitsPerEm))` per used glyph, raising
`IndexError` past the width table and `ZeroDivisionError` on zero
units-per-em. -/
def widths1000 (font : FontTables) : List Nat → Option (List (Nat × Int))
  | [] => some []
  | g :: gs =>
      if g < font.advanceWidths.length then
        if font.unitsPerEm = 0 then none
        else
          match widths1000 font gs with
          | none => none
          | some rest =>
              some ((g, pyRound ((font.advanceWidths.getD g 0 : ℚ) * 1000 /
                (font.unitsPerEm : ℚ))) :: rest)
      else none

/-- The guard at the top of `build_pdf_objects` (lines 226-227): an
empty subset registers a single space first. -/
def buildUsedState (font : FontTables) (st : FontEncSt) : FontEncSt :=
  if st.usedChars = [] then ensureText font st [32] else st

def insertSorted (x : Nat) : List Nat → List Nat
  | [] => [x]
  | y :: ys => if x ≤ y then x :: y :: ys else y :: insertSorted x ys

/-- Ascending sort, Python's `sorted` on the distinct dict keys. -/
def sortNat (l : List Nat) : List Nat := l.foldr insertSorted []

/-- Line 275: `widths.get(self.char_to_gid.get(" ", 0), 600)`. -/
def defaultWidth (st : FontEncSt) (widths : List (Nat × Int)) : Int :=
  (dget widths ((dget st.charToGid 32).getD 0)).getD 600

/-- The `W` array entries (lines 278-283): glyphs in ascending order,
skipping any nonzero glyph whose width equals the default width. -/
def wEntries (widths : List (Nat × Int)) (dw : Int) : List (Nat × Int) :=
  (sortNat (widths.map Prod.fst)).filterMap fun g =>
    match dget widths g with
    | none => none
    | some w => if w = dw ∧ g ≠ 0 then none else some (g, w)

/-! ### Layout engine word wrap (`LayoutEngine.add_paragraph`, lines 439-477)

Page geometry constants from lines 17-22; `line_text` is represented by
the list of string pieces the source concatenates (the bullet mark,
single spaces, and words), so a flushed line is the concatenation of its
pieces and `line_text.strip()` is truthy exactly when some piece holds a
non-whitespace character. -/

def PAGE_WIDTH : ℚ := 595.28

def MARGIN_LEFT : ℚ := 56

def MARGIN_RIGHT : ℚ := 56

/-- The whitespace class of Python `str.split` / `str.strip`. -/
def isPySpace (c : Nat) : Bool :=
  c == 9 || c == 10 || c == 11 || c == 12 || c == 13 ||
  c == 28 || c == 29 || c == 30 || c == 31 || c == 32 ||
  c == 133 || c == 160 || c == 5760 ||
  decide (8192 ≤ c ∧ c ≤ 8202) || c == 8232 || c == 8233 || c == 8239 ||
  c == 8287 || c == 12288

def pySplitAux : List Nat → List Nat → List (List Nat)
  | [], acc => if acc = [] then [] else [acc.reverse]
  | c :: rest, acc =>
      if isPySpace c then
        if acc = [] then pySplitAux rest []
        else acc.reverse :: pySplitAux rest []
      else pySplitAux rest (c :: acc)

/-- Python `text.split()`: maximal runs of non-whitespace characters. -/
def pySplit (text : List Nat) : List (List Nat) := pySplitAux text []

/-- Truthiness of `line_text.strip()` for a pieces list. -/
def stripTruthy (pieces : List (List Nat)) : Bool :=
  pieces.any fun p => p.any fun c => ! isPySpace c

/-- `"• "`, the bullet run (`prefix` in the source). -/
def bulletMark : List Nat := [0x2022, 32]

structure Paragraph where
  text : List Nat
  kind : String := "body"
  size : ℚ := 11.5
  spaceBefore : ℚ := 0
  spaceAfter : ℚ := 10
  color : Option (ℚ × ℚ × ℚ) := none
  bullet : Bool := false
  indent : ℚ := 0

structure WrapSt where
  lines : List (ℚ × List (List Nat))
  pieces : List (List Nat)
  lineWidth : ℚ
  lineIndent : ℚ
  availableWidth : ℚ

/-- The word loop of `add_paragraph` (lines 460-477), threading the
encoder state through each `measure_text` call and ending with the final
`if line_text: lines.append(...)` flush. -/
def wrapWords (font : FontTables) (size spaceW maxW indent : ℚ) (bullet : Bool) :
    List (List Nat) → WrapSt → FontEncSt →
    Option (List (ℚ × List (List Nat)) × FontEncSt)
  | [], w, est =>
      if w.pieces.any (· ≠ []) then some (w.lines ++ [(w.lineIndent, w.pieces)], est)
      else some (w.lines, est)
  | word :: rest, w, est =>
      match measureText font est word size with
      | none => none
      | some (ww, est1) =>
          -- `add_space` is `stripTruthy w.pieces` and `projected` the
          -- first summand of the condition, inlined below
          if w.lineWidth + (if stripTruthy w.pieces then spaceW else 0) + ww
              ≤ w.availableWidth ∨ stripTruthy w.pieces = false then
            wrapWords font size spaceW maxW indent bullet rest
              { w with
                pieces := w.pieces ++ (if stripTruthy w.pieces then [[32]] else []) ++ [word],
                lineWidth := w.lineWidth + (if stripTruthy w.pieces then spaceW else 0) + ww }
              est1
          else
            wrapWords font size spaceW maxW indent bullet rest
              { lines := w.lines ++ [(w.lineIndent, w.pieces)],
                pieces := [word], lineWidth := ww,
                lineIndent := indent + (if bullet then 14 else 0),
                availableWidth := maxW - (indent + (if bullet then 14 else 0)) }
              est1

/-- The line-building part of `add_paragraph` (lines 439-477): NBSP
normalization, the empty-text early exit, word split, bullet-mark
registration, space and bullet-mark measurement, then the word loop.
The subsequent drawing loop (lines 478-494) turns each produced line
into one draw command and cannot raise. -/
def wrapParagraph (font : FontTables) (p : Paragraph) (est : FontEncSt) :
    Option (List (ℚ × List (List Nat)) × FontEncSt) :=
  let text := p.text.map fun c => if c = 0xa0 then 32 else c
  if text = [] then some ([], est)
  else
    let words := pySplit text
    let est0 := if p.bullet then ensureText font est bulletMark else est
    let maxW := PAGE_WIDTH - MARGIN_LEFT - MARGIN_RIGHT
    match measureText font est0 [32] p.size with
    | none => none
    | some (spaceW, est1) =>
        match (if p.bullet then measureText font est1 bulletMark p.size
               else some ((0 : ℚ), est1)) with
        | none => none
        | some (prefW, est2) =>
            wrapWords font p.size spaceW maxW p.indent p.bullet words
              { lines := [], pieces := if p.bullet then [bulletMark] else [],
                lineWidth := prefW, lineIndent := p.indent,
                availableWidth := maxW - p.indent } est2

/-! ### Document object writer state (`PDFDocument`, lines 321-349) -/

/-- Python dict item update: replace in place when the key exists, else
append (needed because `add_stream` sets `Filter` and `Length` on its
local copy). -/
def dset (d : List (String × String)) (k v : String) : List (String × String) :=
  if d.any (fun p => p.1 = k) then d.map (fun p => if p.1 = k then (k, v) else p)
  else d ++ [(k, v)]

/-- `" ".join(["<<"] ++ ["/k v", ...] ++ [">>"])` and UTF-8 encoding.
Code points of the joined string stand for its UTF-8 bytes; every
dictionary the program emits is ASCII, where the two agree. -/
def dictBody (d : List (String × String)) : List Nat :=
  asciiBytes ("<<" ++ String.join (d.map fun p => " /" ++ p.1 ++ " " ++ p.2) ++ " >>")

structure PdfSt where
  objects : List (List Nat)
  deriving DecidableEq

/-- `add_object` (lines 326-333): serialize, append, return the 1-based
position. -/
def addObject (st : PdfSt) (d : List (String × String)) : PdfSt × Nat :=
  (⟨st.objects ++ [dictBody d]⟩, st.objects.length + 1)

/-- Serialized bytes of a stream object (lines 342-347). -/
def streamBody (d : List (String × String)) (data : List Nat) : List Nat :=
  dictBody d ++ [10] ++ asciiBytes "stream" ++ [10] ++ data ++ [10] ++ asciiBytes "endstream"

/-- `add_stream` (lines 335-349).  `compressFn` stands for
`zlib.compress`.  The third component is the caller's dictionary as the
method leaves it: the source rebinds its local name to `dict(dictionary)`
copies before every key assignment, so the caller's object is never
written to and passes through unchanged. -/
def addStream (compressFn : List Nat → List Nat) (st : PdfSt)
    (dictionary : List (String × String)) (data : List Nat) (compress : Bool) :
    PdfSt × Nat × List (String × String) :=
  let data1 := if compress then compressFn data else data
  let local1 := if compress then dset dictionary "Filter" "/FlateDecode" else dictionary
  let local2 := dset local1 "Length" (String.mk ((natRepr data1.length).map Char.ofNat))
  (⟨st.objects ++ [streamBody local2 data1]⟩, st.objects.length + 1, dictionary)

/-! ### Shared lemmas about the dict model and `Except` chains -/

theorem dget_mem {α β : Type} [DecidableEq α] (d : List (α × β)) (k : α) (v : β)
    (h : dget d k = some v) : (k, v) ∈ d := by
  induction d with
  | nil => simp [dget] at h
  | cons p rest ih =>
      rw [dget] at h
      cases hr : dget rest k with
      | some w =>
          rw [hr] at h
          have hwv : some w = some v := h
          exact List.mem_cons_of_mem _ (ih (hr.trans hwv))
      | none =>
          rw [hr] at h
          have h' : (if p.1 = k then some p.2 else none) = some v := h
          by_cases hk : p.1 = k
          · rw [if_pos hk] at h'
            have hp : p = (k, v) := by
              cases p with
              | mk a b =>
                  simp only [Option.some.injEq] at h'
                  simp at hk
                  rw [hk, h']
            exact hp ▸ List.mem_cons_self _ _
          · rw [if_neg hk] at h'
            exact absurd h' (by simp)

theorem dget_append {α β : Type} [DecidableEq α] (d₁ d₂ : List (α × β)) (k : α) :
    dget (d₁ ++ d₂) k =
      match dget d₂ k with
      | some v => some v
      | none => dget d₁ k := by
  induction d₁ with
  | nil => simp [dget]; cases dget d₂ k <;> rfl
  | cons p rest ih =>
      rw [List.cons_append, dget, ih]
      cases dget d₂ k with
      | some v => rfl
      | none => rfl

/-- Lookup in a self-keyed association list built by `map`. -/
theorem dget_map_self {β : Type} (f : Nat → β) (l : List Nat) (k : Nat) :
    dget (l.map fun x => (x, f x)) k = if k ∈ l then some (f k) else none := by
  induction l with
  | nil => simp [dget]
  | cons a t ih =>
      rw [List.map_cons, dget, ih]
      by_cases hk : k ∈ t
      · simp [hk]
      · by_cases ha : a = k
        · subst ha; simp [hk]
        · simp [hk, ha, Ne.symm ha]

theorem except_bind_ok {α β : Type} {e : Except PyErr α} {f : α → Except PyErr β} {b : β}
    (h : (e >>= f) = .ok b) : ∃ a, e = .ok a ∧ f a = .ok b := by
  cases e with
  | error err => simp [Bind.bind, Except.bind] at h
  | ok a => exact ⟨a, rfl, by simpa [Bind.bind, Except.bind] using h⟩

/-! ### C10: `add_stream` / `add_object` frame property -/

/-- C10.  `add_stream` leaves the caller's dictionary unchanged (the
`Filter`/`Length` entries land on the internal `dict(dictionary)` copy
only), and both insertion methods merely append one serialized object,
returning the new 1-based id and preserving every previously inserted
object's bytes and id. -/
theorem add_stream_frame (compressFn : List Nat → List Nat) (st : PdfSt)
    (d : List (String × String)) (data : List Nat) (c : Bool)
    (d2 : List (String × String)) (k : Nat) (hk : k < st.objects.length) :
    (addStream compressFn st d data c).2.2 = d ∧
    (addStream compressFn st d data c).1.objects
      = st.objects ++
        [streamBody
          (dset (if c then dset d "Filter" "/FlateDecode" else d) "Length"
            (String.mk ((natRepr (if c then compressFn data else data).length).map Char.ofNat)))
          (if c then compressFn data else data)] ∧
    (addStream compressFn st d data c).2.1 = st.objects.length + 1 ∧
    (addObject st d2).1.objects = st.objects ++ [dictBody d2] ∧
    (addObject st d2).2 = st.objects.length + 1 ∧
    (addStream compressFn st d data c).1.objects.getD k [] = st.objects.getD k [] ∧
    (addObject st d2).1.objects.getD k [] = st.objects.getD k [] := by
  refine ⟨rfl, rfl, rfl, rfl, rfl, ?_, ?_⟩
  · simp [addStream, List.getD_eq_getElem?_getD, List.getElem?_append_left hk]
  · simp [addObject, List.getD_eq_getElem?_getD, List.getElem?_append_left hk]

/-- Witness for C10 on a one-object document. -/
theorem add_stream_frame_witness :
    (0 : Nat) < 1 ∧
    (addStream id ⟨[[37]]⟩ [("Length1", "4")] [1, 2, 3] false).1.objects.getD 0 [] = [37] :=
  ⟨Nat.one_pos,
   (add_stream_frame id ⟨[[37]]⟩ [("Length1", "4")] [1, 2, 3] false [] 0 Nat.one_pos).2.2.2.2.2.1⟩

/-! ### C9: encoder registration invariant -/

/-- The structural invariant tying the four registration fields together:
`char_set` and `used_chars` evolve identically, `char_to_gid` maps every
registered character to its cmap glyph in registration order, and every
recorded glyph is a `used_glyphs` key. -/
def EncInv (font : FontTables) (st : FontEncSt) : Prop :=
  st.charSet = st.usedChars ∧
  st.charToGid = st.usedChars.map (fun c => (c, glyphForChar font c)) ∧
  st.usedChars.Nodup ∧
  (∀ c, c ∈ st.usedChars → glyphForChar font c ∈ st.usedGlyphs)

theorem encInv_init (font : FontTables) : EncInv font initEnc := by
  refine ⟨rfl, rfl, List.nodup_nil, ?_⟩
  intro c hc
  simp [initEnc] at hc

theorem registerChar_inv (font : FontTables) (st : FontEncSt) (c : Nat)
    (h : EncInv font st) :
    EncInv font (registerChar font st c) ∧
    (registerChar font st c).usedChars
      = (if c ∈ st.usedChars then st.usedChars else st.usedChars ++ [c]) := by
  obtain ⟨h1, h2, h3, h4⟩ := h
  by_cases hc : c ∈ st.charSet
  · rw [registerChar, if_pos hc]
    exact ⟨⟨h1, h2, h3, h4⟩, by rw [if_pos (h1 ▸ hc)]⟩
  · rw [registerChar, if_neg hc]
    have hcu : c ∉ st.usedChars := h1 ▸ hc
    refine ⟨⟨?_, ?_, ?_, ?_⟩, by rw [if_neg hcu]⟩
    · simp [h1]
    · simp [h2]
    · simp [List.nodup_append, h3, hcu]
    · intro c' hc'
      rcases List.mem_append.mp hc' with hl | hr
      · by_cases hg : glyphForChar font c ∈ st.usedGlyphs
        · simpa [hg] using h4 c' hl
        · simp only [hg, if_neg, if_false]
          exact List.mem_append_left _ (h4 c' hl)
      · have : c' = c := by simpa using hr
        subst this
        by_cases hg : glyphForChar font c' ∈ st.usedGlyphs
        · simp [hg]
        · simp [hg]

theorem ensureText_inv (font : FontTables) (text : List Nat) : ∀ st, EncInv font st →
    EncInv font (ensureText font st text) ∧
    (ensureText font st text).usedChars
      = text.foldl (fun acc c => if c ∈ acc then acc else acc ++ [c]) st.usedChars := by
  induction text with
  | nil => intro st h; exact ⟨h, rfl⟩
  | cons c cs ih =>
      intro st h
      obtain ⟨hinv, hu⟩ := registerChar_inv font st c h
      obtain ⟨hinv2, hu2⟩ := ih _ hinv
      have hcons : ensureText font st (c :: cs) = ensureText font (registerChar font st c) cs := rfl
      rw [hcons, hu2, List.foldl_cons, hu]
      exact ⟨hinv2, rfl⟩

/-- Under the invariant, the state effect of one `measure_text` call is a
plain registration of the characters it scanned. -/
theorem measureChars_state (font : FontTables) (text : List Nat) : ∀ st total, EncInv font st →
    (measureChars font text st total).2 = ensureText font st (measureScanned font text st) := by
  induction text with
  | nil => intro st total _; rfl
  | cons c cs ih =>
      intro st total h
      have hst1 : (if (dget st.charToGid c).isSome then st else ensureText font st [c])
          = registerChar font st c := by
        by_cases hm : (dget st.charToGid c).isSome
        · rw [if_pos hm]
          have hmem : c ∈ st.usedChars := by
            rcases Option.isSome_iff_exists.mp hm with ⟨g, hg⟩
            rw [h.2.1, dget_map_self] at hg
            by_cases hc : c ∈ st.usedChars
            · exact hc
            · rw [if_neg hc] at hg; exact absurd hg (by simp)
          rw [registerChar, if_pos (h.1 ▸ hmem)]
        · rw [if_neg hm]; rfl
      obtain ⟨hinv1, _⟩ := registerChar_inv font st c h
      rw [measureChars, measureScanned, hst1]
      cases hd : dget (registerChar font st c).charToGid c with
      | none => rfl
      | some g =>
          by_cases hlt : g < font.advanceWidths.length
          · simp only [hlt, if_pos]
            rw [ih _ _ hinv1]
            rfl
          · simp only [hlt, if_neg, if_false]
            rfl

theorem applyCall_state (font : FontTables) (st : FontEncSt) (call : EncCall)
    (h : EncInv font st) :
    applyCall font st call = ensureText font st (callScanned font st call) := by
  cases call with
  | ensure text => rfl
  | measure text size => exact measureChars_state font text st 0 h
  | encode text =>
      by_cases ht : text = []
      · subst ht; rfl
      · simp [applyCall, callScanned, ht]

theorem foldlCalls_inv (font : FontTables) (calls : List EncCall) : ∀ st, EncInv font st →
    EncInv font (calls.foldl (applyCall font) st) ∧
    (calls.foldl (applyCall font) st).usedChars
      = (seenStream font calls st).foldl
          (fun acc c => if c ∈ acc then acc else acc ++ [c]) st.usedChars := by
  induction calls with
  | nil => intro st h; exact ⟨h, rfl⟩
  | cons call rest ih =>
      intro st h
      rw [List.foldl_cons, applyCall_state font st call h]
      obtain ⟨hinv1, hu1⟩ := ensureText_inv font (callScanned font st call) st h
      obtain ⟨hinv2, hu2⟩ := ih _ hinv1
      refine ⟨hinv2, ?_⟩
      rw [hu2, hu1, seenStream, List.foldl_append]
      have : seenStream font rest (applyCall font st call)
          = seenStream font rest (ensureText font st (callScanned font st call)) := by
        rw [applyCall_state font st call h]
      rw [← this]

/-- C9.  After any sequence of `ensure_text` / `measure_text` /
`encode_text` calls: `char_set` and `used_chars` coincide, the keys of
`char_to_gid` are exactly `used_chars` in the same order, a character is
in `char_set` iff `char_to_gid` resolves it, `used_chars` holds each
character exactly once in first-seen order of the processed character
stream, and every recorded glyph id is a `used_glyphs` key. -/
theorem fontencoder_registration_invariant (font : FontTables) (calls : List EncCall) :
    (applyCalls font calls).charSet = (applyCalls font calls).usedChars ∧
    (applyCalls font calls).charToGid.map Prod.fst = (applyCalls font calls).usedChars ∧
    (∀ c, c ∈ (applyCalls font calls).charSet ↔ (dget (applyCalls font calls).charToGid c).isSome = true) ∧
    (applyCalls font calls).usedChars.Nodup ∧
    (applyCalls font calls).usedChars = firstDedup (seenStream font calls initEnc) ∧
    (∀ c g, (c, g) ∈ (applyCalls font calls).charToGid → g ∈ (applyCalls font calls).usedGlyphs) := by
  obtain ⟨⟨h1, h2, h3, h4⟩, hu⟩ := foldlCalls_inv font calls initEnc (encInv_init font)
  simp only [applyCalls]
  refine ⟨h1, ?_, ?_, h3, hu, ?_⟩
  · rw [h2, List.map_map]
    exact List.map_id _
  · intro c
    rw [h1, h2, dget_map_self]
    by_cases hc : c ∈ (applyCalls font calls).usedChars
    · simp [applyCalls, hc]
    · simp [applyCalls, hc]
  · intro c g hmem
    rw [h2] at hmem
    rcases List.mem_map.mp hmem with ⟨c', hc', heq⟩
    have hcc : c' = c ∧ glyphForChar font c' = g := by
      constructor
      · exact congrArg Prod.fst heq
      · exact congrArg Prod.snd heq
    rcases hcc with ⟨rfl, rfl⟩
    exact h4 _ hc'

/-! ### C7: width monotonicity of `measure_text` -/

theorem measureChars_append (font : FontTables) (s t : List Nat) : ∀ st total,
    measureChars font (s ++ t) st total
      = match measureChars font s st total with
        | (none, st') => (none, st')
        | (some tot, st') => measureChars font t st' tot := by
  induction s with
  | nil => intro st total; rfl
  | cons c cs ih =>
      intro st total
      rw [List.cons_append]
      show measureChars font (c :: (cs ++ t)) st total = _
      simp only [measureChars]
      cases hd : dget (if (dget st.charToGid c).isSome then st
          else ensureText font st [c]).charToGid c with
      | none => rfl
      | some g =>
          by_cases hlt : g < font.advanceWidths.length
          · simp only [hlt, if_pos]
            exact ih _ _
          · simp only [hlt, if_neg, if_false]

theorem measureChars_ge (font : FontTables) (text : List Nat) : ∀ st total t2 st2,
    measureChars font text st total = (some t2, st2) → total ≤ t2 := by
  induction text with
  | nil =>
      intro st total t2 st2 h
      simp only [measureChars] at h
      injection h with h1 h2
      injection h1 with h3
      omega
  | cons c cs ih =>
      intro st total t2 st2 h
      simp only [measureChars] at h
      split at h
      · exact absurd (congrArg Prod.fst h) (by simp)
      · split at h
        · exact le_trans (Nat.le_add_right _ _) (ih _ _ _ _ h)
        · exact absurd (congrArg Prod.fst h) (by simp)

/-- Evaluation rule for `measure_text` when the character loop succeeds. -/
theorem measureText_eval (font : FontTables) (st st1 : FontEncSt) (text : List Nat)
    (size : ℚ) (total : Nat) (h : measureChars font text st 0 = (some total, st1))
    (hu : font.unitsPerEm ≠ 0) :
    measureText font st text size = some ((total : ℚ) / (font.unitsPerEm : ℚ) * size, st1) := by
  rw [measureText, h]
  show (if font.unitsPerEm = 0 then none
    else some ((total : ℚ) / (font.unitsPerEm : ℚ) * size, st1)) = _
  rw [if_neg hu]

/-- C7 (amended).  For a nonnegative size, appending one character never
decreases the measured width: every advance width is a `uint16`, so the
added glyph contributes a nonnegative advance. -/
theorem measure_text_monotone (font : FontTables) (st : FontEncSt) (s : List Nat) (ch : Nat)
    (size v1 v2 : ℚ) (st1 st2 : FontEncSt)
    (h1 : measureText font st s size = some (v1, st1))
    (h2 : measureText font st (s ++ [ch]) size = some (v2, st2))
    (hsize : 0 ≤ size) : v1 ≤ v2 := by
  unfold measureText at h1 h2
  cases hc1 : measureChars font s st 0 with
  | mk r1 sta =>
      cases r1 with
      | none => rw [hc1] at h1; exact absurd h1 (by simp)
      | some t1 =>
          rw [hc1] at h1
          have h1' : (if font.unitsPerEm = 0 then none
              else some ((t1 : ℚ) / (font.unitsPerEm : ℚ) * size, sta)) = some (v1, st1) := h1
          by_cases hu : font.unitsPerEm = 0
          · rw [if_pos hu] at h1'; exact absurd h1' (by simp)
          · rw [if_neg hu] at h1'
            rw [measureChars_append, hc1] at h2
            have h2a : (match measureChars font [ch] sta t1 with
                | (none, _) => (none : Option (ℚ × FontEncSt))
                | (some total, stx) =>
                    if font.unitsPerEm = 0 then none
                    else some ((total : ℚ) / (font.unitsPerEm : ℚ) * size, stx))
                = some (v2, st2) := h2
            cases hc2 : measureChars font [ch] sta t1 with
            | mk r2 stb =>
                cases r2 with
                | none =>
                    rw [hc2] at h2a
                    have hnone : (none : Option (ℚ × FontEncSt)) = some (v2, st2) := h2a
                    exact absurd hnone (by simp)
                | some t2 =>
                    rw [hc2] at h2a
                    have h2' : (if font.unitsPerEm = 0 then none
                        else some ((t2 : ℚ) / (font.unitsPerEm : ℚ) * size, stb))
                        = some (v2, st2) := h2a
                    rw [if_neg hu] at h2'
                    have hv1 : v1 = (t1 : ℚ) / (font.unitsPerEm : ℚ) * size :=
                      (congrArg Prod.fst (Option.some.inj h1')).symm
                    have hv2 : v2 = (t2 : ℚ) / (font.unitsPerEm : ℚ) * size :=
                      (congrArg Prod.fst (Option.some.inj h2')).symm
                    have hle : t1 ≤ t2 := measureChars_ge font [ch] sta t1 t2 stb hc2
                    have hupos : (0 : ℚ) < (font.unitsPerEm : ℚ) := by
                      exact_mod_cast Nat.pos_of_ne_zero hu
                    have hq : (t1 : ℚ) ≤ (t2 : ℚ) := by exact_mod_cast hle
                    rw [hv1, hv2]
                    gcongr

/-- One-glyph font: units-per-em 1, a single advance width 5, empty
cmap (every code point resolves to the notdef glyph 0). -/
def c7Font : FontTables :=
  ⟨1, 0, 0, 0, 1, 1, [5], [], 0, 0, 0, 0, 0, 0, 0, 0⟩

/-- Encoder state after registering the single character `A`. -/
def c7StA : FontEncSt := ⟨[65], [65], [(65, 0)], [0]⟩

theorem c7_measure_nil : measureText c7Font initEnc [] (-1) = some (0, initEnc) := by
  rw [measureText_eval c7Font initEnc initEnc [] (-1) 0 (by decide) (by decide)]
  norm_num [c7Font]

theorem c7_measure_A : measureText c7Font initEnc ([] ++ [65]) (-1) = some (-5, c7StA) := by
  rw [measureText_eval c7Font initEnc c7StA ([] ++ [65]) (-1) 5 (by decide) (by decide)]
  norm_num [c7Font]

/-- C7 counterexample: at size `-1`, appending `A` (advance width 5,
nonnegative) strictly decreases the measured width, so the claim's
"for every size" fails. -/
theorem measure_monotonicity_cex :
    measureText c7Font initEnc [] (-1) = some (0, initEnc) ∧
    measureText c7Font initEnc ([] ++ [65]) (-1) = some (-5, c7StA) ∧
    c7Font.advanceWidths.getD (glyphForChar c7Font 65) 0 = 5 ∧
    ¬ ((0 : ℚ) ≤ -5) :=
  ⟨c7_measure_nil, c7_measure_A, by decide, by norm_num⟩

theorem c7_measure_A1 : measureText c7Font initEnc [65] 1 = some (5, c7StA) := by
  rw [measureText_eval c7Font initEnc c7StA [65] 1 5 (by decide) (by decide)]
  norm_num [c7Font]

theorem c7_measure_AA1 : measureText c7Font initEnc ([65] ++ [65]) 1 = some (10, c7StA) := by
  rw [measureText_eval c7Font initEnc c7StA ([65] ++ [65]) 1 10 (by decide) (by decide)]
  norm_num [c7Font]

/-- Witness for C7 on size 1. -/
theorem measure_text_monotone_witness :
    measureText c7Font initEnc [65] 1 = some (5, c7StA) ∧
    measureText c7Font initEnc ([65] ++ [65]) 1 = some (10, c7StA) ∧ (5 : ℚ) ≤ 10 :=
  ⟨c7_measure_A1, c7_measure_AA1,
   measure_text_monotone c7Font initEnc [65] 65 1 5 10 c7StA c7StA
     c7_measure_A1 c7_measure_AA1 (by norm_num)⟩

/-! ### C4: cmap format 12 group mapping -/

theorem dget_none_of_no_key {β : Type} (l : List (Nat × β)) (k : Nat)
    (h : ∀ p ∈ l, p.1 ≠ k) : dget l k = none := by
  cases hd : dget l k with
  | none => rfl
  | some v => exact absurd rfl (h _ (dget_mem _ _ _ hd))

theorem dget_flatten_none {β : Type} (Ls : List (List (Nat × β))) (k : Nat)
    (h : ∀ l ∈ Ls, dget l k = none) : dget Ls.flatten k = none := by
  induction Ls with
  | nil => rfl
  | cons l rest ih =>
      rw [List.flatten_cons, dget_append, ih (fun l' hl' => h l' (List.mem_cons_of_mem _ hl'))]
      exact h l (List.mem_cons_self _ _)

theorem groupWrites_key (g : Nat × Nat × Nat) (c v : Nat)
    (h : (c, v) ∈ groupWrites g) : g.1 ≤ c ∧ c ≤ g.2.1 := by
  rcases List.mem_map.mp h with ⟨code, hcode, heq⟩
  obtain ⟨h1, h2⟩ := List.mem_range'_1.mp hcode
  have hc : code = c := congrArg Prod.fst heq
  subst hc
  omega

theorem dget_groupWrites (s e gid c : Nat) (h1 : s ≤ c) (h2 : c ≤ e) :
    dget (groupWrites (s, e, gid)) c = some (gid + (c - s)) := by
  show dget ((List.range' s (e + 1 - s)).map fun code => (code, gid + (code - s))) c = _
  rw [dget_map_self (fun code => gid + (code - s))]
  rw [if_pos (List.mem_range'_1.mpr ⟨h1, by omega⟩)]

theorem dget_groupWrites_none (g : Nat × Nat × Nat) (c : Nat)
    (h : ¬ (g.1 ≤ c ∧ c ≤ g.2.1)) : dget (groupWrites g) c = none :=
  dget_none_of_no_key _ _ fun p hp hk =>
    h (hk ▸ groupWrites_key g p.1 p.2 (by simpa using hp))

theorem dget_flatten_groups (c : Nat) : ∀ (gs : List (Nat × Nat × Nat)) (j s e gid : Nat),
    j < gs.length → gs.getD j (0, 0, 0) = (s, e, gid) → s ≤ c → c ≤ e →
    (∀ k, j < k → k < gs.length →
      ¬ ((gs.getD k (0, 0, 0)).1 ≤ c ∧ c ≤ (gs.getD k (0, 0, 0)).2.1)) →
    dget (gs.map groupWrites).flatten c = some (gid + (c - s)) := by
  intro gs
  induction gs with
  | nil => intro j s e gid hj; simp at hj
  | cons g rest ih =>
      intro j s e gid hj hget hs he huniq
      rw [List.map_cons, List.flatten_cons, dget_append]
      cases j with
      | zero =>
          have hrest : dget (rest.map groupWrites).flatten c = none := by
            apply dget_flatten_none
            intro l hl
            rcases List.mem_map.mp hl with ⟨g', hg', rfl⟩
            rcases List.getElem_of_mem hg' with ⟨k, hk, hkeq⟩
            have := huniq (k + 1) (Nat.succ_pos _) (by simpa using Nat.succ_lt_succ hk)
            apply dget_groupWrites_none
            simpa [List.getD_cons_succ, List.getD_eq_getElem?_getD, List.getElem?_eq_getElem hk,
              hkeq] using this
          rw [hrest]
          have hg0 : g = (s, e, gid) := by simpa using hget
          subst hg0
          exact dget_groupWrites s e gid c hs he
      | succ j' =>
          rw [ih j' s e gid (by simpa using hj) (by simpa using hget) hs he
            (fun k hk1 hk2 => by
              simpa [List.getD_cons_succ] using
                huniq (k + 1) (Nat.succ_lt_succ hk1) (by simpa using Nat.succ_lt_succ hk2))]

/-- C4.  Format 12 parsing: for a group `(startCharCode, endCharCode,
startGlyphId)` and a codepoint in its range, the final map resolves the
codepoint to `startGlyphId + (code - startCharCode)` (the group deciding
the final dict value, i.e. no later group rewrites the codepoint). -/
theorem cmap_format12_mapping (data : List Nat) (offset numGroups : Nat)
    (m : List (Nat × Nat)) (gs : List (Nat × Nat × Nat)) (j s e gid code : Nat)
    (hm : parseCmapFormat12 data offset = .ok m)
    (hn : u32ok data (offset + 12) = some numGroups)
    (hg : readGroups data (offset + 16) numGroups = .ok gs)
    (hj : j < gs.length) (hget : gs.getD j (0, 0, 0) = (s, e, gid))
    (hs : s ≤ code) (he : code ≤ e)
    (huniq : ∀ k, j < k → k < gs.length →
      ¬ ((gs.getD k (0, 0, 0)).1 ≤ code ∧ code ≤ (gs.getD k (0, 0, 0)).2.1)) :
    dget m code = some (gid + (code - s)) := by
  unfold parseCmapFormat12 at hm
  cases h1 : u16ok data offset with
  | none =>
      rw [h1] at hm
      exact Except.noConfusion (show Except.error PyErr.structError = Except.ok m from hm)
  | some a =>
      rw [h1] at hm
      cases h2 : u16ok data (offset + 2) with
      | none =>
          rw [h2] at hm
          exact Except.noConfusion (show Except.error PyErr.structError = Except.ok m from hm)
      | some b =>
          rw [h2] at hm
          cases h3 : u32ok data (offset + 4) with
          | none =>
              rw [h3] at hm
              exact Except.noConfusion (show Except.error PyErr.structError = Except.ok m from hm)
          | some len =>
              rw [h3] at hm
              cases h4 : u32ok data (offset + 8) with
              | none =>
                  rw [h4] at hm
                  exact Except.noConfusion
                    (show Except.error PyErr.structError = Except.ok m from hm)
              | some lang =>
                  rw [h4, hn] at hm
                  have hm1 : (match readGroups data (offset + 16) numGroups with
                      | Except.error e => Except.error e
                      | Except.ok gs' => Except.ok ((gs'.map groupWrites).flatten))
                      = Except.ok m := hm
                  rw [hg] at hm1
                  have hm2 : Except.ok ((gs.map groupWrites).flatten) = Except.ok m := hm1
                  rw [← Except.ok.inj hm2]
                  exact dget_flatten_groups code gs j s e gid hj hget hs he huniq

/-- Concrete format 12 subtable: one group `(0x10000, 0x10002, 500)`. -/
def c4Data : List Nat :=
  [0, 12, 0, 0, 0, 0, 0, 28, 0, 0, 0, 0, 0, 0, 0, 1,
   0, 1, 0, 0, 0, 1, 0, 2, 0, 0, 1, 244]

/-- Witness for C4: codepoint `0x10001` resolves to glyph 501. -/
theorem cmap_format12_mapping_witness :
    parseCmapFormat12 c4Data 0
      = .ok [(65536, 500), (65537, 501), (65538, 502)] ∧
    dget [(65536, 500), (65537, 501), (65538, 502)] 65537 = some 501 :=
  ⟨by decide,
   by
    have h := cmap_format12_mapping c4Data 0 1 [(65536, 500), (65537, 501), (65538, 502)]
      [(65536, 65538, 500)] 0 65536 65538 500 65537
      (by decide) (by decide) (by decide) (by decide) (by decide) (by decide) (by decide)
      (fun k hk1 hk2 => by
        have hlen : k < 1 := by simpa using hk2
        exact absurd hlen (by omega))
    simpa using h⟩

/-! ### C3: cmap format 4 segment mapping -/

theorem f4Glyph_key (data : List Nat) (offset subLength iroPos i delta ro start code : Nat)
    (p : Nat × Nat)
    (h : f4Glyph data offset subLength iroPos i delta ro start code = .ok (some p)) :
    p.1 = code := by
  unfold f4Glyph at h
  split at h
  · have h1 := Option.some.inj (Except.ok.inj h)
    rw [← h1]
  · split at h
    · exact absurd (Except.ok.inj h) (by simp)
    · split at h
      · exact Except.noConfusion h
      · have h1 := Option.some.inj (Except.ok.inj h)
        rw [← h1]

theorem f4SegWrites_key (data : List Nat) (offset subLength iroPos i delta ro start : Nat) :
    ∀ (codes : List Nat) (l : List (Nat × Nat)),
    f4SegWrites data offset subLength iroPos i delta ro start codes = .ok l →
    ∀ p ∈ l, p.1 ∈ codes := by
  intro codes
  induction codes with
  | nil =>
      intro l h p hp
      have : l = [] := (Except.ok.inj h).symm
      subst this
      exact absurd hp (List.not_mem_nil _)
  | cons c rest ih =>
      intro l h p hp
      simp only [f4SegWrites] at h
      cases hg : f4Glyph data offset subLength iroPos i delta ro start c with
      | error e => rw [hg] at h; exact Except.noConfusion h
      | ok o =>
          rw [hg] at h
          cases o with
          | none =>
              have h' : f4SegWrites data offset subLength iroPos i delta ro start rest
                  = .ok l := h
              exact List.mem_cons_of_mem _ (ih l h' p hp)
          | some q =>
              cases hr : f4SegWrites data offset subLength iroPos i delta ro start rest with
              | error e =>
                  rw [hr] at h
                  exact Except.noConfusion h
              | ok l' =>
                  rw [hr] at h
                  have hl : q :: l' = l := Except.ok.inj h
                  rw [← hl] at hp
                  rcases List.mem_cons.mp hp with rfl | hp'
                  · rw [f4Glyph_key data offset subLength iroPos i delta ro start c p hg]
                    exact List.mem_cons_self _ _
                  · exact List.mem_cons_of_mem _ (ih l' hr p hp')

theorem f4SegWrites_dget (data : List Nat) (offset subLength iroPos i delta ro start : Nat) :
    ∀ (codes : List Nat) (l : List (Nat × Nat)) (code γ : Nat),
    f4SegWrites data offset subLength iroPos i delta ro start codes = .ok l →
    codes.Nodup → code ∈ codes →
    f4Glyph data offset subLength iroPos i delta ro start code = .ok (some (code, γ)) →
    dget l code = some γ := by
  intro codes
  induction codes with
  | nil => intro l code γ _ _ hmem; exact absurd hmem (List.not_mem_nil _)
  | cons c rest ih =>
      intro l code γ h hnd hmem hglyph
      simp only [f4SegWrites] at h
      cases hg : f4Glyph data offset subLength iroPos i delta ro start c with
      | error e => rw [hg] at h; exact Except.noConfusion h
      | ok o =>
          rw [hg] at h
          cases o with
          | none =>
              have h' : f4SegWrites data offset subLength iroPos i delta ro start rest
                  = .ok l := h
              rcases List.mem_cons.mp hmem with rfl | hmem'
              · rw [hglyph] at hg
                exact absurd (Except.ok.inj hg) (by simp)
              · exact ih l code γ h' (List.Nodup.of_cons hnd) hmem' hglyph
          | some q =>
              cases hr : f4SegWrites data offset subLength iroPos i delta ro start rest with
              | error e => rw [hr] at h; exact Except.noConfusion h
              | ok l' =>
                  rw [hr] at h
                  have hl : q :: l' = l := Except.ok.inj h
                  rw [← hl, dget]
                  rcases List.mem_cons.mp hmem with rfl | hmem'
                  · have hcnot : code ∉ rest := (List.nodup_cons.mp hnd).1
                    have hnone : dget l' code = none :=
                      dget_none_of_no_key _ _ fun p hp hk =>
                        hcnot (hk ▸ f4SegWrites_key data offset subLength iroPos
                          i delta ro start rest l' hr p hp)
                    rw [hnone]
                    have hq : q = (code, γ) := by
                      rw [hglyph] at hg
                      exact (Option.some.inj (Except.ok.inj hg)).symm
                    subst hq
                    simp
                  · have hne : c ≠ code := fun hc => (List.nodup_cons.mp hnd).1 (hc ▸ hmem')
                    rw [ih l' code γ hr (List.Nodup.of_cons hnd) hmem' hglyph]

theorem f4Loop_dget_none (data : List Nat) (offset subLength iroPos code : Nat) :
    ∀ (segs : List (Nat × Nat × Nat × Nat × Nat)) (ls : List (Nat × Nat)),
    f4Loop data offset subLength iroPos segs = .ok ls →
    (∀ k, k < segs.length →
      ¬ ((segs.getD k (0, 0, 0, 0, 0)).2.1 ≤ code ∧
         code ≤ (segs.getD k (0, 0, 0, 0, 0)).2.2.1)) →
    dget ls code = none := by
  intro segs
  induction segs with
  | nil =>
      intro ls h _
      have : [] = ls := Except.ok.inj h
      rw [← this]
      rfl
  | cons seg rest ih =>
      intro ls h hcov
      obtain ⟨i0, s0, e0, d0, r0⟩ := seg
      simp only [f4Loop] at h
      cases hw : f4SegWrites data offset subLength iroPos i0 d0 r0 s0
          (List.range' s0 (e0 + 1 - s0)) with
      | error e => rw [hw] at h; exact Except.noConfusion h
      | ok l =>
          rw [hw] at h
          cases hrest : f4Loop data offset subLength iroPos rest with
          | error e => rw [hrest] at h; exact Except.noConfusion h
          | ok ls' =>
              rw [hrest] at h
              have hm : l ++ ls' = ls := Except.ok.inj h
              rw [← hm, dget_append]
              have hhead := hcov 0 (Nat.succ_pos _)
              simp only [List.getD_cons_zero] at hhead
              have hl : dget l code = none := by
                apply dget_none_of_no_key
                intro p hp hk
                have hmem := f4SegWrites_key data offset subLength iroPos i0 d0 r0 s0 _ l hw p hp
                rw [hk] at hmem
                obtain ⟨ha, hb⟩ := List.mem_range'_1.mp hmem
                have hbe : code ≤ e0 := by omega
                exact hhead ⟨ha, hbe⟩
              rw [ih ls' hrest fun k hk => by
                simpa [List.getD_cons_succ] using hcov (k + 1) (Nat.succ_lt_succ hk)]
              exact hl

theorem f4Loop_dget (data : List Nat) (offset subLength iroPos code : Nat) :
    ∀ (segs : List (Nat × Nat × Nat × Nat × Nat)) (m : List (Nat × Nat)) (j : Nat)
      (i start endc delta ro γ : Nat),
    f4Loop data offset subLength iroPos segs = .ok m →
    j < segs.length → segs.getD j (0, 0, 0, 0, 0) = (i, start, endc, delta, ro) →
    start ≤ code → code ≤ endc →
    f4Glyph data offset subLength iroPos i delta ro start code = .ok (some (code, γ)) →
    (∀ k, j < k → k < segs.length →
      ¬ ((segs.getD k (0, 0, 0, 0, 0)).2.1 ≤ code ∧
         code ≤ (segs.getD k (0, 0, 0, 0, 0)).2.2.1)) →
    dget m code = some γ := by
  intro segs
  induction segs with
  | nil => intro m j i start endc delta ro γ _ hj; simp at hj
  | cons seg rest ih =>
      intro m j i start endc delta ro γ h hj hget hlo hhi hglyph huniq
      obtain ⟨i0, s0, e0, d0, r0⟩ := seg
      simp only [f4Loop] at h
      cases hw : f4SegWrites data offset subLength iroPos i0 d0 r0 s0
          (List.range' s0 (e0 + 1 - s0)) with
      | error e => rw [hw] at h; exact Except.noConfusion h
      | ok l =>
          rw [hw] at h
          cases hrest : f4Loop data offset subLength iroPos rest with
          | error e => rw [hrest] at h; exact Except.noConfusion h
          | ok ls =>
              rw [hrest] at h
              have hm : l ++ ls = m := Except.ok.inj h
              rw [← hm, dget_append]
              cases j with
              | zero =>
                  simp only [List.getD_cons_zero] at hget
                  injection hget with h1 hget
                  injection hget with h2 hget
                  injection hget with h3 hget
                  injection hget with h4 h5
                  rw [h1, h2, h3, h4, h5] at hw
                  have hnone : dget ls code = none := by
                    apply f4Loop_dget_none data offset subLength iroPos code rest ls hrest
                    intro k hk
                    simpa [List.getD_cons_succ] using
                      huniq (k + 1) (Nat.succ_pos _) (Nat.succ_lt_succ hk)
                  rw [hnone]
                  exact f4SegWrites_dget data offset subLength iroPos i delta ro start
                    _ l code γ hw (List.nodup_range' start (endc + 1 - start))
                    (List.mem_range'_1.mpr ⟨hlo, by omega⟩) hglyph
              | succ j' =>
                  have hih := ih ls j' i start endc delta ro γ hrest
                    (by simpa using hj) (by simpa using hget) hlo hhi hglyph
                    (fun k hk1 hk2 => by
                      simpa [List.getD_cons_succ] using
                        huniq (k + 1) (Nat.succ_lt_succ hk1) (Nat.succ_lt_succ hk2))
                  rw [hih]

theorem f4Segs_length (t : F4Sub) : (f4Segs t).length = t.segCount := by
  simp [f4Segs]

theorem f4Segs_getD (t : F4Sub) (j : Nat) (hj : j < t.segCount) :
    (f4Segs t).getD j (0, 0, 0, 0, 0)
      = (j, t.startCodes.getD j 0, t.endCodes.getD j 0, t.deltas.getD j 0, t.ros.getD j 0) := by
  rw [f4Segs, List.getD_eq_getElem?_getD, List.getElem?_map, List.getElem?_range hj]
  rfl

/-- C3.  Format 4 parsing: for a segment deciding a codepoint in its
range (no later segment also covers the codepoint), the final map value
is `(code + idDelta) mod 2^16` when `idRangeOffset = 0`, else the
indirect lookup at `idRangeOffset-address + idRangeOffset +
2*(code-startCode)`, with a raw 0 meaning glyph 0 and delta applied mod
`2^16` otherwise (when that position is inside the declared subtable and
the physical buffer). -/
theorem cmap_format4_mapping (data : List Nat) (offset : Nat) (t : F4Sub)
    (m : List (Nat × Nat)) (i start endc delta ro code : Nat)
    (ht : parseF4 data offset = .ok t)
    (hm : parseCmapFormat4 data offset = .ok m)
    (hi : i < t.segCount)
    (hstart : t.startCodes.getD i 0 = start) (hend : t.endCodes.getD i 0 = endc)
    (hdelta : t.deltas.getD i 0 = delta) (hro : t.ros.getD i 0 = ro)
    (hlo : start ≤ code) (hhi : code ≤ endc)
    (huniq : ∀ k, i < k → k < t.segCount →
      ¬ (t.startCodes.getD k 0 ≤ code ∧ code ≤ t.endCodes.getD k 0)) :
    (ro = 0 → dget m code = some (((code : Int) + i16 delta) % 65536).toNat) ∧
    (∀ gi, ro ≠ 0 →
      t.iroPos + 2 * i + ro + 2 * (code - start) < offset + t.subLength →
      u16ok data (t.iroPos + 2 * i + ro + 2 * (code - start)) = some gi →
      dget m code = some (if gi = 0 then 0 else (((gi : Int) + i16 delta) % 65536).toNat)) := by
  have hb : (parseF4 data offset >>=
      fun t' => f4Loop data offset t'.subLength t'.iroPos (f4Segs t')) = .ok m := hm
  obtain ⟨t', ht', hloop⟩ := except_bind_ok hb
  rw [ht] at ht'
  have htt : t = t' := Except.ok.inj ht'
  subst htt
  have hseg : (f4Segs t).getD i (0, 0, 0, 0, 0) = (i, start, endc, delta, ro) := by
    rw [f4Segs_getD t i hi, hstart, hend, hdelta, hro]
  have hlen : i < (f4Segs t).length := by rw [f4Segs_length]; exact hi
  have huniq' : ∀ k, i < k → k < (f4Segs t).length →
      ¬ (((f4Segs t).getD k (0, 0, 0, 0, 0)).2.1 ≤ code ∧
         code ≤ ((f4Segs t).getD k (0, 0, 0, 0, 0)).2.2.1) := by
    intro k hk1 hk2
    rw [f4Segs_getD t k (by rw [← f4Segs_length t]; exact hk2)]
    exact huniq k hk1 (by rw [← f4Segs_length t]; exact hk2)
  constructor
  · intro hro0
    have hglyph : f4Glyph data offset t.subLength t.iroPos i delta ro start code
        = .ok (some (code, (((code : Int) + i16 delta) % 65536).toNat)) := by
      unfold f4Glyph
      rw [if_pos hro0]
    exact f4Loop_dget data offset t.subLength t.iroPos code (f4Segs t) m i
      i start endc delta ro _ hloop hlen hseg hlo hhi hglyph huniq'
  · intro gi hron hbound hgi
    have hglyph : f4Glyph data offset t.subLength t.iroPos i delta ro start code
        = .ok (some (code, if gi = 0 then 0 else (((gi : Int) + i16 delta) % 65536).toNat)) := by
      unfold f4Glyph
      rw [if_neg hron, if_neg (not_le.mpr hbound), hgi]
    exact f4Loop_dget data offset t.subLength t.iroPos code (f4Segs t) m i
      i start endc delta ro _ hloop hlen hseg hlo hhi hglyph huniq'

/-- Concrete format 4 subtable: one segment `start=0x41, end=0x43,
delta=0, idRangeOffset=0` (the spec's round-trip example). -/
def c3Data : List Nat :=
  [0, 4, 0, 24, 0, 0, 0, 2, 0, 0, 0, 0, 0, 0,
   0, 0x43, 0, 0, 0, 0x41, 0, 0, 0, 0]

def c3Sub : F4Sub := ⟨24, 1, [67], [65], [0], [0], 22⟩

/-- Witness for C3: the single segment resolves `0x41, 0x42, 0x43` to
glyphs `0x41, 0x42, 0x43`. -/
theorem cmap_format4_mapping_witness :
    parseCmapFormat4 c3Data 0 = .ok [(65, 65), (66, 66), (67, 67)] ∧
    dget [(65, 65), (66, 66), (67, 67)] 65 = some 65 ∧
    dget [(65, 65), (66, 66), (67, 67)] 66 = some 66 ∧
    dget [(65, 65), (66, 66), (67, 67)] 67 = some 67 := by
  refine ⟨by decide, ?_, ?_, ?_⟩
  · have h := (cmap_format4_mapping c3Data 0 c3Sub [(65, 65), (66, 66), (67, 67)]
      0 65 67 0 0 65 (by decide) (by decide) (by decide) (by decide) (by decide)
      (by decide) (by decide) (by decide) (by decide)
      (fun k hk1 hk2 => by
        have hlen : k < 1 := by simpa [c3Sub] using hk2
        exact absurd hlen (by omega))).1 rfl
    rw [h]; decide
  · have h := (cmap_format4_mapping c3Data 0 c3Sub [(65, 65), (66, 66), (67, 67)]
      0 65 67 0 0 66 (by decide) (by decide) (by decide) (by decide) (by decide)
      (by decide) (by decide) (by decide) (by decide)
      (fun k hk1 hk2 => by
        have hlen : k < 1 := by simpa [c3Sub] using hk2
        exact absurd hlen (by omega))).1 rfl
    rw [h]; decide
  · have h := (cmap_format4_mapping c3Data 0 c3Sub [(65, 65), (66, 66), (67, 67)]
      0 65 67 0 0 67 (by decide) (by decide) (by decide) (by decide) (by decide)
      (by decide) (by decide) (by decide) (by decide)
      (fun k hk1 hk2 => by
        have hlen : k < 1 := by simpa [c3Sub] using hk2
        exact absurd hlen (by omega))).1 rfl
    rw [h]; decide

/-! ### C2: the parse failure conditions -/

def be16 (n : Nat) : List Nat := [n / 256 % 256, n % 256]

def be32 (n : Nat) : List Nat :=
  [n / 16777216 % 256, n / 65536 % 256, n / 256 % 256, n % 256]

def isOkE {α : Type} : Except PyErr α → Bool
  | .ok _ => true
  | .error _ => false

/-- Synthetic font whose offset directory, `head`, `hhea`, `maxp`,
`hmtx` and `cmap` (platform 3 / encoding 1, format 4) are all present
and well formed, but which has no `OS/2` table. -/
def fontNoOS2 : List Nat :=
  (be32 0x00010000 ++ be16 5 ++ be16 0 ++ be16 0 ++ be16 0) ++
  ([104, 101, 97, 100] ++ be32 0 ++ be32 92 ++ be32 44) ++
  ([104, 104, 101, 97] ++ be32 0 ++ be32 136 ++ be32 36) ++
  ([109, 97, 120, 112] ++ be32 0 ++ be32 172 ++ be32 6) ++
  ([104, 109, 116, 120] ++ be32 0 ++ be32 178 ++ be32 4) ++
  ([99, 109, 97, 112] ++ be32 0 ++ be32 182 ++ be32 36) ++
  (List.replicate 18 0 ++ be16 1000 ++ List.replicate 16 0 ++ List.replicate 8 0) ++
  (List.replicate 4 0 ++ be16 800 ++ be16 0 ++ be16 0 ++ List.replicate 24 0 ++ be16 1) ++
  (List.replicate 4 0 ++ be16 2) ++
  (be16 500 ++ be16 0) ++
  (be16 0 ++ be16 1 ++ be16 3 ++ be16 1 ++ be32 12 ++
   [0, 4, 0, 24, 0, 0, 0, 2, 0, 0, 0, 0, 0, 0,
    0, 0x41, 0, 0, 0, 0x41, 0, 0, 0, 0])

def fontNoOS2Tables : List (String × Nat × Nat) :=
  [("head", 92, 44), ("hhea", 136, 36), ("maxp", 172, 6),
   ("hmtx", 178, 4), ("cmap", 182, 36)]

/-- C2 counterexample: none of the claim's failure conditions holds
(directory and all five tables it names parse, and a platform-3 /
encoding-1 subtable of format 4 is found and parsed), yet the parse
fails — with a `KeyError` on the unconditionally required `OS/2` table
(the code defines no `MalformedFontError` / `UnsupportedCmapFormatError`
classes at all; missing tables raise `KeyError`, truncated reads
`struct.error`, cmap conditions `RuntimeError`). -/
theorem parse_error_taxonomy_cex :
    parseTables fontNoOS2 = .ok fontNoOS2Tables ∧
    isOkE (parseHead fontNoOS2 fontNoOS2Tables) = true ∧
    isOkE (parseHhea fontNoOS2 fontNoOS2Tables) = true ∧
    isOkE (parseMaxp fontNoOS2 fontNoOS2Tables) = true ∧
    isOkE (parseHmtx fontNoOS2 fontNoOS2Tables 2 1) = true ∧
    isOkE (parseCmap fontNoOS2 fontNoOS2Tables) = true ∧
    trueTypeParse fontNoOS2 = .error (.keyError "OS/2") := by
  refine ⟨by decide, by decide, by decide, by decide, by decide, by decide, by decide⟩

/-- C2 (amended).  The parse fails exactly when one of its stages fails:
the claim's listed conditions (directory, `head`, `hhea`, `maxp`,
`hmtx`, usable-cmap-subtable of format 4 or 12) plus, additionally, the
`OS/2` stage (the table is required despite the spec calling it
optional) and the `post` stage (present but shorter than 8 bytes). -/
theorem parse_stage_characterization (data : List Nat) :
    (∃ t, trueTypeParse data = .ok t) ↔
      (∃ tables hd hh mg wd cm os2 ps,
        parseTables data = .ok tables ∧
        parseHead data tables = .ok hd ∧
        parseHhea data tables = .ok hh ∧
        parseMaxp data tables = .ok mg ∧
        parseHmtx data tables mg hh.2.2.2 = .ok wd ∧
        parseCmap data tables = .ok cm ∧
        parseOS2 data tables = .ok os2 ∧
        parsePost data tables = .ok ps) := by
  constructor
  · rintro ⟨t, ht⟩
    obtain ⟨tables, h1, ht⟩ := except_bind_ok ht
    obtain ⟨hd, h2, ht⟩ := except_bind_ok ht
    obtain ⟨u, xa, xb, xc, xd⟩ := hd
    obtain ⟨hh, h3, ht⟩ := except_bind_ok ht
    obtain ⟨asc, dsc, lg, nh⟩ := hh
    obtain ⟨mg, h4, ht⟩ := except_bind_ok ht
    obtain ⟨wd, h5, ht⟩ := except_bind_ok ht
    obtain ⟨cm, h6, ht⟩ := except_bind_ok ht
    obtain ⟨os2, h7, ht⟩ := except_bind_ok ht
    obtain ⟨ta, td, ch⟩ := os2
    obtain ⟨ps, h8, _⟩ := except_bind_ok ht
    exact ⟨tables, _, _, _, _, _, _, _, h1, h2, h3, h4, h5, h6, h7, h8⟩
  · rintro ⟨tables, ⟨u, xa, xb, xc, xd⟩, ⟨asc, dsc, lg, nh⟩, mg, wd, cm,
      ⟨ta, td, ch⟩, ps, h1, h2, h3, h4, h5, h6, h7, h8⟩
    refine ⟨⟨u, asc, dsc, lg, nh, mg, wd, cm, ta, td, ch, xa, xb, xc, xd, ps⟩, ?_⟩
    rw [trueTypeParse]
    rw [h1]
    show (parseHead data tables >>= _) = _
    rw [h2]
    show (parseHhea data tables >>= _) = _
    rw [h3]
    show (parseMaxp data tables >>= _) = _
    rw [h4]
    show (parseHmtx data tables mg nh >>= _) = _
    rw [h5]
    show (parseCmap data tables >>= _) = _
    rw [h6]
    show (parseOS2 data tables >>= _) = _
    rw [h7]
    show (parsePost data tables >>= _) = _
    rw [h8]
    rfl

/-! ### C5: hmtx forward fill -/

theorem readHmtxWidths_length (table : List Nat) : ∀ (n pos : Nat) (l : List Nat),
    readHmtxWidths table pos n = .ok l → l.length = n := by
  intro n
  induction n with
  | zero =>
      intro pos l h
      have : [] = l := Except.ok.inj h
      rw [← this]
      rfl
  | succ n' ih =>
      intro pos l h
      simp only [readHmtxWidths] at h
      split at h
      · cases hr : readHmtxWidths table (pos + 4) n' with
        | error e => rw [hr] at h; exact Except.noConfusion h
        | ok rest =>
            rw [hr] at h
            have : u16 table pos :: rest = l := Except.ok.inj h
            rw [← this, List.length_cons, ih _ _ hr]
      · exact Except.noConfusion h

/-- C5 (amended).  For every successfully parsed font the advance-width
list has length `max numGlyphs numHMetrics` — equal to `numGlyphs` only
when `numHMetrics ≤ numGlyphs` — and every entry past the explicit
`numHMetrics` ones equals the last explicit advance width. -/
theorem hmtx_forward_fill (data : List Nat) (t : FontTables)
    (h : trueTypeParse data = .ok t) :
    t.advanceWidths.length = max t.numGlyphs t.numHMetrics ∧
    (∀ j, t.numHMetrics ≤ j → j < t.advanceWidths.length →
      t.advanceWidths.getD j 0 = t.advanceWidths.getD (t.numHMetrics - 1) 0) := by
  obtain ⟨tables, h1, ht⟩ := except_bind_ok h
  obtain ⟨hd, h2, ht⟩ := except_bind_ok ht
  obtain ⟨u, xa, xb, xc, xd⟩ := hd
  obtain ⟨hh, h3, ht⟩ := except_bind_ok ht
  obtain ⟨asc, dsc, lg, nh⟩ := hh
  obtain ⟨mg, h4, ht⟩ := except_bind_ok ht
  obtain ⟨wd, h5, ht⟩ := except_bind_ok ht
  obtain ⟨cm, h6, ht⟩ := except_bind_ok ht
  obtain ⟨os2, h7, ht⟩ := except_bind_ok ht
  obtain ⟨ta, td, ch⟩ := os2
  obtain ⟨ps, h8, ht⟩ := except_bind_ok ht
  have htv : FontTables.mk u asc dsc lg nh mg wd cm ta td ch xa xb xc xd ps = t :=
    Except.ok.inj ht
  obtain ⟨off, hoff, h5⟩ := except_bind_ok h5
  obtain ⟨o1, o2⟩ := off
  obtain ⟨ws, hws, h5⟩ := except_bind_ok h5
  have hwl : ws.length = nh := readHmtxWidths_length _ _ _ _ hws
  rw [← htv]
  simp only []
  by_cases hfill : nh < mg
  · rw [if_pos hfill] at h5
    cases hlast : ws.getLast? with
    | none => rw [hlast] at h5; exact Except.noConfusion h5
    | some lw =>
        rw [hlast] at h5
        have hwd : ws ++ List.replicate (mg - nh) lw = wd := Except.ok.inj h5
        have hne : ws ≠ [] := by
          intro hnil
          rw [hnil] at hlast
          exact Option.noConfusion hlast
        have hpos : 1 ≤ nh := by
          rw [← hwl]
          exact Nat.one_le_iff_ne_zero.mpr (fun hz => hne (List.eq_nil_of_length_eq_zero hz))
        constructor
        · rw [← hwd, List.length_append, List.length_replicate, hwl]
          omega
        · intro j hj hjl
          rw [← hwd, List.length_append, List.length_replicate, hwl] at hjl
          have hlast_val : ws.getD (nh - 1) 0 = lw := by
            rw [List.getD_eq_getElem?_getD, ← hwl, ← List.getLast?_eq_getElem?, hlast]
            rfl
          rw [← hwd,
            List.getD_append_right ws _ 0 j (by rw [hwl]; exact hj),
            List.getD_append ws _ 0 (nh - 1) (by rw [hwl]; omega),
            hlast_val,
            List.getD_eq_getElem _ _ (by rw [List.length_replicate, hwl]; omega)]
          simp
  · rw [if_neg hfill] at h5
    have hwd : ws = wd := Except.ok.inj h5
    constructor
    · rw [← hwd, hwl]
      omega
    · intro j hj hjl
      rw [← hwd, hwl] at hjl
      omega

/-- Synthetic font that parses successfully with `numHMetrics = 2` but
`numGlyphs = 1` (all six required tables present, `OS/2` version 0,
no `post`). -/
def fontC5 : List Nat :=
  (be32 0x00010000 ++ be16 6 ++ be16 0 ++ be16 0 ++ be16 0) ++
  ([104, 101, 97, 100] ++ be32 0 ++ be32 108 ++ be32 44) ++
  ([104, 104, 101, 97] ++ be32 0 ++ be32 152 ++ be32 36) ++
  ([109, 97, 120, 112] ++ be32 0 ++ be32 188 ++ be32 6) ++
  ([104, 109, 116, 120] ++ be32 0 ++ be32 194 ++ be32 8) ++
  ([99, 109, 97, 112] ++ be32 0 ++ be32 202 ++ be32 36) ++
  ([79, 83, 47, 50] ++ be32 0 ++ be32 238 ++ be32 72) ++
  (List.replicate 18 0 ++ be16 1000 ++ List.replicate 16 0 ++ List.replicate 8 0) ++
  (List.replicate 4 0 ++ be16 800 ++ be16 0 ++ be16 0 ++ List.replicate 24 0 ++ be16 2) ++
  (List.replicate 4 0 ++ be16 1) ++
  (be16 500 ++ be16 0 ++ be16 300 ++ be16 0) ++
  (be16 0 ++ be16 1 ++ be16 3 ++ be16 1 ++ be32 12 ++
   [0, 4, 0, 24, 0, 0, 0, 2, 0, 0, 0, 0, 0, 0,
    0, 0x41, 0, 0, 0, 0x41, 0, 0, 0, 0]) ++
  (be16 0 ++ List.replicate 66 0 ++ be16 800 ++ be16 0)

/-- The `FontTables` value `fontC5` parses to. -/
def fontC5Parsed : FontTables :=
  ⟨1000, 800, 0, 0, 2, 1, [500, 300], [(65, 65)], 800, 0, 800, 0, 0, 0, 0, 0⟩

/-- C5 counterexample: a successfully parsed font whose advance-width
list has length 2 while `numGlyphs = 1` — the `hmtx` reader never trims
surplus explicit metrics, so `len(advanceWidths) = numGlyphs` fails. -/
theorem hmtx_length_cex :
    trueTypeParse fontC5 = .ok fontC5Parsed ∧
    fontC5Parsed.advanceWidths.length = 2 ∧ fontC5Parsed.numGlyphs = 1 ∧ (2 : Nat) ≠ 1 :=
  ⟨by decide, by decide, by decide, by decide⟩

/-- Witness for the amended C5 on `fontC5`. -/
theorem hmtx_forward_fill_witness :
    trueTypeParse fontC5 = .ok fontC5Parsed ∧
    fontC5Parsed.advanceWidths.length = max fontC5Parsed.numGlyphs fontC5Parsed.numHMetrics :=
  ⟨by decide, (hmtx_forward_fill fontC5 fontC5Parsed (by decide)).1⟩

/-! ### C6: default width and the sparse `W` array -/

/-- Per-mille width of a glyph, `int(round(advance * 1000 / unitsPerEm))`. -/
def pmWidth (font : FontTables) (g : Nat) : Int :=
  pyRound ((font.advanceWidths.getD g 0 : ℚ) * 1000 / (font.unitsPerEm : ℚ))

theorem pyRound_natCast (n : Nat) : pyRound (n : ℚ) = n := by
  unfold pyRound
  rw [Int.floor_natCast]
  norm_num

theorem widths1000_eq (font : FontTables) : ∀ (gl : List Nat) (ws : List (Nat × Int)),
    widths1000 font gl = some ws → ws = gl.map fun g => (g, pmWidth font g) := by
  intro gl
  induction gl with
  | nil =>
      intro ws h
      have : some [] = some ws := h
      rw [← Option.some.inj this]
      rfl
  | cons g rest ih =>
      intro ws h
      simp only [widths1000] at h
      split at h
      · split at h
        · exact Option.noConfusion h
        · cases hr : widths1000 font rest with
          | none => rw [hr] at h; exact Option.noConfusion h
          | some ws' =>
              rw [hr] at h
              have := Option.some.inj h
              rw [← this, List.map_cons, ih ws' hr]
              rfl
      · exact Option.noConfusion h

theorem mem_insertSorted (a x : Nat) : ∀ l : List Nat,
    (a ∈ insertSorted x l ↔ a = x ∨ a ∈ l) := by
  intro l
  induction l with
  | nil => simp [insertSorted]
  | cons y ys ih =>
      simp only [insertSorted]
      by_cases hxy : x ≤ y
      · simp [hxy]
      · simp only [hxy, if_false, List.mem_cons, ih]
        tauto

theorem mem_sortNat (a : Nat) : ∀ l : List Nat, a ∈ sortNat l ↔ a ∈ l := by
  intro l
  induction l with
  | nil => simp [sortNat]
  | cons x xs ih =>
      show a ∈ insertSorted x (sortNat xs) ↔ _
      rw [mem_insertSorted, ih]
      simp

theorem wEntries_mem (font : FontTables) (gl : List Nat) (dw : Int) (g : Nat) (w : Int) :
    ((g, w) ∈ wEntries (gl.map fun x => (x, pmWidth font x)) dw)
      ↔ (g ∈ gl ∧ w = pmWidth font g ∧ (w ≠ dw ∨ g = 0)) := by
  unfold wEntries
  rw [List.mem_filterMap]
  have hkeys : (gl.map fun x => (x, pmWidth font x)).map Prod.fst = gl := by
    rw [List.map_map]
    exact List.map_id _
  rw [hkeys]
  constructor
  · rintro ⟨g', hg', hfn⟩
    rw [mem_sortNat] at hg'
    rw [dget_map_self (fun x => pmWidth font x), if_pos hg'] at hfn
    have hfn' : (if pmWidth font g' = dw ∧ g' ≠ 0 then none
        else some (g', pmWidth font g')) = some (g, w) := hfn
    by_cases hskip : pmWidth font g' = dw ∧ g' ≠ 0
    · rw [if_pos hskip] at hfn'
      exact Option.noConfusion hfn'
    · rw [if_neg hskip] at hfn'
      have hp := Option.some.inj hfn'
      have hgg : g' = g := congrArg Prod.fst hp
      have hww : pmWidth font g' = w := congrArg Prod.snd hp
      subst hgg
      refine ⟨hg', hww.symm, ?_⟩
      rw [← hww]
      tauto
  · rintro ⟨hmem, hval, hkeep⟩
    refine ⟨g, (mem_sortNat g _).mpr hmem, ?_⟩
    rw [dget_map_self (fun x => pmWidth font x), if_pos hmem]
    have hskip : ¬ (pmWidth font g = dw ∧ g ≠ 0) := by
      rw [← hval]
      tauto
    show (if pmWidth font g = dw ∧ g ≠ 0 then none
        else some (g, pmWidth font g)) = some (g, w)
    rw [if_neg hskip, hval]

/-- C6 (amended).  The default width is `widths.get(char_to_gid.get(" ",
0), 600)`: the space glyph's per-mille width when the space character is
registered; otherwise glyph 0's per-mille width when glyph 0 is used;
otherwise 600.  The `W` array contains exactly the used glyphs whose
per-mille width differs from that default, plus glyph 0. -/
theorem default_width_and_w_array (font : FontTables) (st0 : FontEncSt)
    (ws : List (Nat × Int))
    (hw : widths1000 font (buildUsedState font st0).usedGlyphs = some ws)
    (hcl : ∀ p ∈ (buildUsedState font st0).charToGid,
      p.2 ∈ (buildUsedState font st0).usedGlyphs) :
    (∀ g, dget (buildUsedState font st0).charToGid 32 = some g →
      defaultWidth (buildUsedState font st0) ws = pmWidth font g) ∧
    (dget (buildUsedState font st0).charToGid 32 = none →
      0 ∈ (buildUsedState font st0).usedGlyphs →
      defaultWidth (buildUsedState font st0) ws = pmWidth font 0) ∧
    (dget (buildUsedState font st0).charToGid 32 = none →
      0 ∉ (buildUsedState font st0).usedGlyphs →
      defaultWidth (buildUsedState font st0) ws = 600) ∧
    (∀ g w, ((g, w) ∈ wEntries ws (defaultWidth (buildUsedState font st0) ws))
      ↔ (g ∈ (buildUsedState font st0).usedGlyphs ∧ w = pmWidth font g ∧
         (w ≠ defaultWidth (buildUsedState font st0) ws ∨ g = 0))) := by
  have hws := widths1000_eq font _ ws hw
  refine ⟨?_, ?_, ?_, ?_⟩
  · intro g hg
    have hmem : g ∈ (buildUsedState font st0).usedGlyphs :=
      hcl (32, g) (dget_mem _ _ _ hg)
    unfold defaultWidth
    rw [hg, Option.getD_some, hws, dget_map_self (fun x => pmWidth font x), if_pos hmem]
    rfl
  · intro hg hmem
    unfold defaultWidth
    rw [hg, Option.getD_none, hws, dget_map_self (fun x => pmWidth font x), if_pos hmem]
    rfl
  · intro hg hmem
    unfold defaultWidth
    rw [hg, Option.getD_none, hws, dget_map_self (fun x => pmWidth font x), if_neg hmem]
    rfl
  · intro g w
    rw [hws]
    exact wEntries_mem font _ _ g w

/-- Font for the C6 analysis: `cmap` maps the space (32) to glyph 1;
glyph advances 500 (notdef) and 250 (space glyph), units-per-em 1000. -/
def c6Font : FontTables :=
  ⟨1000, 0, 0, 0, 2, 2, [500, 250], [(32, 1)], 0, 0, 0, 0, 0, 0, 0, 0⟩

/-- Encoder state after laying out one character that the cmap does not
map (resolved to the notdef glyph 0); the space was never measured. -/
def c6St : FontEncSt := ensureText c6Font initEnc [0x2603]

theorem c6_widths_eval : widths1000 c6Font (buildUsedState c6Font c6St).usedGlyphs
    = some [(0, 500)] := by
  show widths1000 c6Font [0] = some [(0, 500)]
  simp only [widths1000]
  rw [if_pos (by decide), if_neg (by decide)]
  have hq : ((c6Font.advanceWidths.getD 0 0 : Nat) : ℚ) * 1000 / (c6Font.unitsPerEm : ℚ)
      = ((500 : Nat) : ℚ) := by
    show ((500 : Nat) : ℚ) * 1000 / ((1000 : Nat) : ℚ) = _
    push_cast
    norm_num
  rw [hq, pyRound_natCast]
  norm_num

/-- C6 counterexample: the space glyph was never measured, yet the
default width is neither 600 nor the space glyph's per-mille width — it
is glyph 0's width, because `char_to_gid.get(" ", 0)` falls back to key
0 and glyph 0 is in the width dict. -/
theorem default_width_cex :
    dget (buildUsedState c6Font c6St).charToGid 32 = none ∧
    widths1000 c6Font (buildUsedState c6Font c6St).usedGlyphs = some [(0, 500)] ∧
    defaultWidth (buildUsedState c6Font c6St) [(0, 500)] = 500 ∧
    pmWidth c6Font (glyphForChar c6Font 32) = 250 ∧
    (500 : Int) ≠ 600 ∧ (500 : Int) ≠ 250 := by
  refine ⟨by decide, c6_widths_eval, by decide, ?_, by decide, by decide⟩
  have hgl : glyphForChar c6Font 32 = 1 := by decide
  rw [hgl]
  unfold pmWidth
  have hq : ((c6Font.advanceWidths.getD 1 0 : Nat) : ℚ) * 1000 / (c6Font.unitsPerEm : ℚ)
      = ((250 : Nat) : ℚ) := by
    show ((250 : Nat) : ℚ) * 1000 / ((1000 : Nat) : ℚ) = _
    push_cast
    norm_num
  rw [hq, pyRound_natCast]
  norm_num

/-- Encoder state with the space and one unmapped character registered. -/
def c6StW : FontEncSt := ensureText c6Font initEnc [32, 65]

theorem c6_widths_evalW : widths1000 c6Font (buildUsedState c6Font c6StW).usedGlyphs
    = some [(1, 250), (0, 500)] := by
  show widths1000 c6Font [1, 0] = some [(1, 250), (0, 500)]
  simp only [widths1000]
  rw [if_pos (by decide), if_neg (by decide), if_pos (by decide), if_neg (by decide)]
  have hq1 : ((c6Font.advanceWidths.getD 1 0 : Nat) : ℚ) * 1000 / (c6Font.unitsPerEm : ℚ)
      = ((250 : Nat) : ℚ) := by
    show ((250 : Nat) : ℚ) * 1000 / ((1000 : Nat) : ℚ) = _
    push_cast
    norm_num
  have hq0 : ((c6Font.advanceWidths.getD 0 0 : Nat) : ℚ) * 1000 / (c6Font.unitsPerEm : ℚ)
      = ((500 : Nat) : ℚ) := by
    show ((500 : Nat) : ℚ) * 1000 / ((1000 : Nat) : ℚ) = _
    push_cast
    norm_num
  rw [hq1, hq0, pyRound_natCast, pyRound_natCast]
  norm_num

/-- Witness for the amended C6: with the space registered, the default
width is the space glyph's per-mille width. -/
theorem default_width_and_w_array_witness :
    widths1000 c6Font (buildUsedState c6Font c6StW).usedGlyphs = some [(1, 250), (0, 500)] ∧
    defaultWidth (buildUsedState c6Font c6StW) [(1, 250), (0, 500)] = pmWidth c6Font 1 :=
  ⟨c6_widths_evalW,
   (default_width_and_w_array c6Font c6StW [(1, 250), (0, 500)] c6_widths_evalW
     (by decide)).1 1 (by decide)⟩

/-! ### C8: unsplittable overflow in `add_paragraph` -/

/-- Registration consistency: every recorded glyph is the cmap glyph of
its character, and `char_set` members resolve in `char_to_gid`.  All
states the encoder can reach satisfy this. -/
def encConsistent (font : FontTables) (st : FontEncSt) : Prop :=
  (∀ p ∈ st.charToGid, p.2 = glyphForChar font p.1) ∧
  (∀ c ∈ st.charSet, (dget st.charToGid c).isSome = true)

theorem dget_singleton (c g k : Nat) :
    dget [(c, g)] k = if c = k then some g else none := rfl

theorem registerChar_consistent (font : FontTables) (st : FontEncSt) (c : Nat)
    (h : encConsistent font st) : encConsistent font (registerChar font st c) := by
  obtain ⟨h1, h2⟩ := h
  unfold registerChar
  by_cases hc : c ∈ st.charSet
  · rw [if_pos hc]; exact ⟨h1, h2⟩
  · rw [if_neg hc]
    constructor
    · intro p hp
      rcases List.mem_append.mp hp with hl | hr
      · exact h1 p hl
      · have hp' : p = (c, glyphForChar font c) := by simpa using hr
        rw [hp']
    · intro c' hc'
      rw [dget_append]
      rcases List.mem_append.mp hc' with hl | hr
      · cases hdg : dget [(c, glyphForChar font c)] c' with
        | some v => rfl
        | none => exact h2 c' hl
      · have hcc : c' = c := by simpa using hr
        subst hcc
        rw [dget_singleton, if_pos rfl]
        rfl

theorem ensureText_consistent (font : FontTables) (text : List Nat) :
    ∀ st, encConsistent font st → encConsistent font (ensureText font st text) := by
  induction text with
  | nil => intro st h; exact h
  | cons c cs ih =>
      intro st h
      exact ih _ (registerChar_consistent font st c h)

/-- Under consistency, the `measure_text` loop succeeds on in-range
texts, returns the state-free total, and preserves consistency. -/
theorem measureChars_eval (font : FontTables) (text : List Nat) :
    ∀ (st : FontEncSt) (total : Nat), encConsistent font st →
    (∀ c ∈ text, glyphForChar font c < font.advanceWidths.length) →
    ∃ st', measureChars font text st total = (some (total + pureWidth font text), st') ∧
      encConsistent font st' := by
  induction text with
  | nil =>
      intro st total h _
      exact ⟨st, by simp [measureChars, pureWidth], h⟩
  | cons c cs ih =>
      intro st total h hrange
      have hst1c : encConsistent font (if (dget st.charToGid c).isSome then st
          else ensureText font st [c]) := by
        split
        · exact h
        · exact ensureText_consistent font [c] st h
      have hdg : dget (if (dget st.charToGid c).isSome then st
          else ensureText font st [c]).charToGid c = some (glyphForChar font c) := by
        by_cases hs : (dget st.charToGid c).isSome = true
        · rw [if_pos hs]
          rcases Option.isSome_iff_exists.mp hs with ⟨g, hg⟩
          have hgv := h.1 _ (dget_mem _ _ _ hg)
          rw [hg]
          exact congrArg some hgv
        · rw [if_neg hs]
          show dget (registerChar font st c).charToGid c = _
          unfold registerChar
          by_cases hcs : c ∈ st.charSet
          · exact absurd (h.2 c hcs) hs
          · rw [if_neg hcs]
            show dget (st.charToGid ++ [(c, glyphForChar font c)]) c = _
            rw [dget_append, dget_singleton, if_pos rfl]
      obtain ⟨st', hst', hc'⟩ := ih
        (if (dget st.charToGid c).isSome then st else ensureText font st [c])
        (total + font.advanceWidths.getD (glyphForChar font c) 0) hst1c
        (fun c' hc' => hrange c' (List.mem_cons_of_mem _ hc'))
      refine ⟨st', ?_, hc'⟩
      simp only [measureChars]
      rw [hdg]
      show (if glyphForChar font c < font.advanceWidths.length then
          measureChars font cs (if (dget st.charToGid c).isSome = true then st
            else ensureText font st [c])
            (total + font.advanceWidths.getD (glyphForChar font c) 0)
        else (none, if (dget st.charToGid c).isSome = true then st
            else ensureText font st [c])) = _
      rw [if_pos (hrange c (List.mem_cons_self _ _))]
      rw [hst']
      have : total + font.advanceWidths.getD (glyphForChar font c) 0 + pureWidth font cs
          = total + pureWidth font (c :: cs) := by
        simp [pureWidth]
        omega
      rw [this]

theorem measureText_consistent (font : FontTables) (text : List Nat) (st : FontEncSt)
    (size : ℚ) (h : encConsistent font st)
    (hrange : ∀ c ∈ text, glyphForChar font c < font.advanceWidths.length)
    (hu : font.unitsPerEm ≠ 0) :
    ∃ st', measureText font st text size = some (pureMeasure font text size, st') ∧
      encConsistent font st' := by
  obtain ⟨st', heq, hc⟩ := measureChars_eval font text st 0 h hrange
  refine ⟨st', ?_, hc⟩
  rw [measureText, heq]
  show (if font.unitsPerEm = 0 then none
    else some (((0 + pureWidth font text : Nat) : ℚ) / (font.unitsPerEm : ℚ) * size, st')) = _
  rw [if_neg hu, Nat.zero_add]
  rfl

theorem pureMeasure_nonneg (font : FontTables) (text : List Nat) (size : ℚ)
    (hs : 0 ≤ size) : 0 ≤ pureMeasure font text size :=
  mul_nonneg (div_nonneg (Nat.cast_nonneg _) (Nat.cast_nonneg _)) hs

theorem pySplitAux_facts : ∀ (l acc : List Nat),
    (∀ c ∈ acc, isPySpace c = false) →
    ∀ w ∈ pySplitAux l acc, w ≠ [] ∧ ∀ c ∈ w, isPySpace c = false := by
  intro l
  induction l with
  | nil =>
      intro acc hacc w hw
      simp only [pySplitAux] at hw
      split at hw
      · exact absurd hw (List.not_mem_nil _)
      · next hne =>
          have hwv : w = acc.reverse := by simpa using hw
          subst hwv
          refine ⟨by simpa using hne, ?_⟩
          intro c hc
          exact hacc c (List.mem_reverse.mp hc)
  | cons c rest ih =>
      intro acc hacc w hw
      simp only [pySplitAux] at hw
      by_cases hsp : isPySpace c = true
      · rw [if_pos hsp] at hw
        split at hw
        · exact ih [] (by simp) w hw
        · next hne =>
            rcases List.mem_cons.mp hw with rfl | hw'
            · refine ⟨by simpa using hne, ?_⟩
              intro c' hc'
              exact hacc c' (List.mem_reverse.mp hc')
            · exact ih [] (by simp) w hw'
      · rw [if_neg hsp] at hw
        refine ih (c :: acc) ?_ w hw
        intro c' hc'
        rcases List.mem_cons.mp hc' with rfl | hmem
        · simpa using hsp
        · exact hacc c' hmem

theorem pySplitAux_subset : ∀ (l acc : List Nat) (w : List Nat), w ∈ pySplitAux l acc →
    ∀ c ∈ w, c ∈ l ∨ c ∈ acc := by
  intro l
  induction l with
  | nil =>
      intro acc w hw c hc
      simp only [pySplitAux] at hw
      split at hw
      · exact absurd hw (List.not_mem_nil _)
      · have hwv : w = acc.reverse := by simpa using hw
        subst hwv
        exact Or.inr (List.mem_reverse.mp hc)
  | cons c0 rest ih =>
      intro acc w hw c hc
      simp only [pySplitAux] at hw
      by_cases hsp : isPySpace c0 = true
      · rw [if_pos hsp] at hw
        split at hw
        · rcases ih [] w hw c hc with hl | hr
          · exact Or.inl (List.mem_cons_of_mem _ hl)
          · exact absurd hr (List.not_mem_nil _)
        · rcases List.mem_cons.mp hw with rfl | hw'
          · exact Or.inr (List.mem_reverse.mp hc)
          · rcases ih [] w hw' c hc with hl | hr
            · exact Or.inl (List.mem_cons_of_mem _ hl)
            · exact absurd hr (List.not_mem_nil _)
      · rw [if_neg hsp] at hw
        rcases ih (c0 :: acc) w hw c hc with hl | hr
        · exact Or.inl (List.mem_cons_of_mem _ hl)
        · rcases List.mem_cons.mp hr with rfl | hmem
          · exact Or.inl (List.mem_cons_self _ _)
          · exact Or.inr hmem

/-- A word as produced by `str.split`, measurable in this font. -/
def GoodWord (font : FontTables) (w : List Nat) : Prop :=
  w ≠ [] ∧ (∀ c ∈ w, isPySpace c = false) ∧
  (∀ c ∈ w, glyphForChar font c < font.advanceWidths.length)

theorem stripTruthy_of_word (x : List Nat) (hne : x ≠ [])
    (hns : ∀ c ∈ x, isPySpace c = false) (pre post : List (List Nat)) :
    stripTruthy (pre ++ x :: post) = true := by
  rcases List.exists_mem_of_ne_nil x hne with ⟨c, hc⟩
  unfold stripTruthy
  rw [List.any_eq_true]
  refine ⟨x, List.mem_append_right _ (List.mem_cons_self _ _), ?_⟩
  rw [List.any_eq_true]
  exact ⟨c, hc, by rw [hns c hc]; rfl⟩

theorem wrapWords_total (font : FontTables) (size spaceW maxW indent : ℚ) (bullet : Bool) :
    ∀ (ws : List (List Nat)) (w : WrapSt) (est : FontEncSt),
    encConsistent font est → font.unitsPerEm ≠ 0 →
    (∀ x ∈ ws, ∀ c ∈ x, glyphForChar font c < font.advanceWidths.length) →
    ∃ r, wrapWords font size spaceW maxW indent bullet ws w est = some r ∧
      ∀ e ∈ w.lines, e ∈ r.1 := by
  intro ws
  induction ws with
  | nil =>
      intro w est _ _ _
      simp only [wrapWords]
      split
      · exact ⟨(w.lines ++ [(w.lineIndent, w.pieces)], est), rfl,
          fun e he => List.mem_append_left _ he⟩
      · exact ⟨(w.lines, est), rfl, fun e he => he⟩
  | cons y ys ih =>
      intro w est hcons hu hrange
      obtain ⟨est1, hm, hc1⟩ := measureText_consistent font y est size hcons
        (fun c hc => hrange y (List.mem_cons_self _ _) c hc) hu
      simp only [wrapWords, hm]
      by_cases hcond : w.lineWidth + (if stripTruthy w.pieces then spaceW else 0)
          + pureMeasure font y size ≤ w.availableWidth ∨ stripTruthy w.pieces = false
      · rw [if_pos hcond]
        obtain ⟨r, hr, hsub⟩ := ih _ est1 hc1 hu
          (fun z hz => hrange z (List.mem_cons_of_mem _ hz))
        exact ⟨r, hr, fun e he => hsub e he⟩
      · rw [if_neg hcond]
        obtain ⟨r, hr, hsub⟩ := ih _ est1 hc1 hu
          (fun z hz => hrange z (List.mem_cons_of_mem _ hz))
        exact ⟨r, hr, fun e he => hsub e (List.mem_append_left _ he)⟩

/-- Once the overflowing word sits alone on the current line and its
width exceeds the available width, every continuation flushes that line
intact. -/
theorem wrapWords_placed (font : FontTables) (size spaceW maxW indent : ℚ) (bullet : Bool)
    (x : List Nat) :
    ∀ (ws : List (List Nat)) (w : WrapSt) (est : FontEncSt),
    encConsistent font est → font.unitsPerEm ≠ 0 →
    (∀ y ∈ ws, GoodWord font y) →
    0 ≤ size → 0 ≤ spaceW →
    x ≠ [] → (∀ c ∈ x, isPySpace c = false) →
    w.pieces = [x] →
    w.availableWidth < w.lineWidth →
    ∃ r, wrapWords font size spaceW maxW indent bullet ws w est = some r ∧
      (w.lineIndent, [x]) ∈ r.1 := by
  intro ws
  cases ws with
  | nil =>
      intro w est _ _ _ _ _ hne hns hp _
      simp only [wrapWords]
      rw [hp]
      rw [if_pos (by simp [hne])]
      exact ⟨(w.lines ++ [(w.lineIndent, [x])], est), rfl,
        List.mem_append_right _ (List.mem_cons_self _ _)⟩
  | cons y ys =>
      intro w est hcons hu hgood hsize hsp hne hns hp havail
      obtain ⟨est1, hm, hc1⟩ := measureText_consistent font y est size hcons
        (fun c hc => (hgood y (List.mem_cons_self _ _)).2.2 c hc) hu
      have htruthy : stripTruthy w.pieces = true := by
        rw [hp]
        exact stripTruthy_of_word x hne hns [] []
      have hwy : 0 ≤ pureMeasure font y size := pureMeasure_nonneg font y size hsize
      have hcond : ¬ (w.lineWidth + (if stripTruthy w.pieces then spaceW else 0)
          + pureMeasure font y size ≤ w.availableWidth ∨ stripTruthy w.pieces = false) := by
        rw [htruthy]
        push_neg
        constructor
        · rw [if_pos rfl]
          linarith
        · simp
      simp only [wrapWords, hm]
      rw [if_neg hcond]
      obtain ⟨r, hr, hsub⟩ := wrapWords_total font size spaceW maxW indent bullet ys
        _ est1 hc1 hu (fun z hz => (hgood z (List.mem_cons_of_mem _ hz)).2.2)
      refine ⟨r, hr, ?_⟩
      apply hsub
      rw [hp]
      exact List.mem_append_right _ (List.mem_cons_self _ _)

/-- Main loop lemma: a word wider than the paragraph-level available
width ends up alone on an output line. -/
theorem wrapWords_overflow (font : FontTables) (size spaceW maxW indent : ℚ) (bullet : Bool)
    (x : List Nat) :
    ∀ (ws : List (List Nat)) (w : WrapSt) (est : FontEncSt),
    encConsistent font est → font.unitsPerEm ≠ 0 →
    (∀ y ∈ ws, GoodWord font y) →
    0 ≤ size → 0 ≤ spaceW →
    x ∈ ws → GoodWord font x →
    maxW - indent < pureMeasure font x size →
    (w.pieces = [] ∨ stripTruthy w.pieces = true) →
    0 ≤ w.lineWidth →
    indent ≤ w.lineIndent →
    w.availableWidth = maxW - w.lineIndent →
    ∃ r, wrapWords font size spaceW maxW indent bullet ws w est = some r ∧
      ∃ ind, (ind, [x]) ∈ r.1 := by
  intro ws
  induction ws with
  | nil =>
      intro w est _ _ _ _ _ hx
      exact absurd hx (List.not_mem_nil _)
  | cons y ys ih =>
      intro w est hcons hu hgood hsize hsp hx hgx hwide hinv hlw hind havail
      obtain ⟨est1, hm, hc1⟩ := measureText_consistent font y est size hcons
        (fun c hc => (hgood y (List.mem_cons_self _ _)).2.2 c hc) hu
      have hb14 : (0 : ℚ) ≤ (if bullet then 14 else 0) := by
        split
        · norm_num
        · norm_num
      rcases List.mem_cons.mp hx with rfl | hxs
      · -- the overflowing word is next
        have hover : w.availableWidth < pureMeasure font x size := by
          rw [havail]
          have : maxW - w.lineIndent ≤ maxW - indent := by linarith
          linarith
        simp only [wrapWords, hm]
        rcases hinv with hempty | htruthy
        · -- empty line: the word is placed alone by the or-empty branch
          have hfalse : stripTruthy w.pieces = false := by
            rw [hempty]
            rfl
          rw [if_pos (Or.inr hfalse)]
          have hplace := wrapWords_placed font size spaceW maxW indent bullet x ys
            { w with
              pieces := w.pieces ++ (if stripTruthy w.pieces then [[32]] else []) ++ [x],
              lineWidth := w.lineWidth + (if stripTruthy w.pieces then spaceW else 0)
                + pureMeasure font x size }
            est1 hc1 hu (fun z hz => hgood z (List.mem_cons_of_mem _ hz)) hsize hsp
            hgx.1 hgx.2.1
            (by rw [hempty]; rfl)
            (by
              show w.availableWidth < w.lineWidth + (if stripTruthy w.pieces then spaceW else 0)
                + pureMeasure font x size
              rw [hfalse]
              have h0 : (if (false = true) then spaceW else 0) = 0 := by norm_num
              rw [h0]
              linarith)
          obtain ⟨r, hr, hmem⟩ := hplace
          exact ⟨r, hr, w.lineIndent, hmem⟩
        · -- nonempty line: it is flushed first, then the word starts its own line
          have hcond : ¬ (w.lineWidth + (if stripTruthy w.pieces then spaceW else 0)
              + pureMeasure font x size ≤ w.availableWidth ∨
              stripTruthy w.pieces = false) := by
            rw [htruthy]
            push_neg
            constructor
            · rw [if_pos rfl]
              linarith
            · simp
          rw [if_neg hcond]
          have hplace := wrapWords_placed font size spaceW maxW indent bullet x ys
            { lines := w.lines ++ [(w.lineIndent, w.pieces)],
              pieces := [x], lineWidth := pureMeasure font x size,
              lineIndent := indent + (if bullet then 14 else 0),
              availableWidth := maxW - (indent + (if bullet then 14 else 0)) }
            est1 hc1 hu (fun z hz => hgood z (List.mem_cons_of_mem _ hz)) hsize hsp
            hgx.1 hgx.2.1 rfl
            (by
              show maxW - (indent + (if bullet then 14 else 0)) < pureMeasure font x size
              linarith)
          obtain ⟨r, hr, hmem⟩ := hplace
          exact ⟨r, hr, indent + (if bullet then 14 else 0), hmem⟩
      · -- the overflowing word comes later: one step, then induction
        have hwy : 0 ≤ pureMeasure font y size := pureMeasure_nonneg font y size hsize
        have hgy := hgood y (List.mem_cons_self _ _)
        simp only [wrapWords, hm]
        by_cases hcond : w.lineWidth + (if stripTruthy w.pieces then spaceW else 0)
            + pureMeasure font y size ≤ w.availableWidth ∨ stripTruthy w.pieces = false
        · rw [if_pos hcond]
          exact ih
            { w with
              pieces := w.pieces ++ (if stripTruthy w.pieces then [[32]] else []) ++ [y],
              lineWidth := w.lineWidth + (if stripTruthy w.pieces then spaceW else 0)
                + pureMeasure font y size }
            est1 hc1 hu (fun z hz => hgood z (List.mem_cons_of_mem _ hz)) hsize hsp hxs
            hgx hwide
            (Or.inr (by
              show stripTruthy (w.pieces ++ (if stripTruthy w.pieces then [[32]] else [])
                ++ [y]) = true
              exact stripTruthy_of_word y hgy.1 hgy.2.1
                (w.pieces ++ (if stripTruthy w.pieces then [[32]] else [])) []))
            (by
              show 0 ≤ w.lineWidth + (if stripTruthy w.pieces then spaceW else 0)
                + pureMeasure font y size
              have : (0 : ℚ) ≤ (if stripTruthy w.pieces then spaceW else 0) := by
                split
                · exact hsp
                · norm_num
              linarith)
            hind havail
        · rw [if_neg hcond]
          exact ih
            { lines := w.lines ++ [(w.lineIndent, w.pieces)],
              pieces := [y], lineWidth := pureMeasure font y size,
              lineIndent := indent + (if bullet then 14 else 0),
              availableWidth := maxW - (indent + (if bullet then 14 else 0)) }
            est1 hc1 hu (fun z hz => hgood z (List.mem_cons_of_mem _ hz)) hsize hsp hxs
            hgx hwide
            (Or.inr (stripTruthy_of_word y hgy.1 hgy.2.1 [] []))
            hwy
            (by show indent ≤ indent + (if bullet then 14 else 0); linarith)
            rfl

/-- C8 (amended).  For a nonnegative paragraph size (hence nonnegative
measured widths), a word whose measured width alone exceeds the
available line width is still placed, unsplit, as the sole content of
its own output line, and the wrap raises no error. -/
theorem unsplittable_overflow (font : FontTables) (p : Paragraph) (est : FontEncSt)
    (x : List Nat)
    (hcons : encConsistent font est)
    (hu : font.unitsPerEm ≠ 0)
    (hsize : 0 ≤ p.size)
    (hsp32 : glyphForChar font 32 < font.advanceWidths.length)
    (hbulg : ∀ c ∈ bulletMark, glyphForChar font c < font.advanceWidths.length)
    (htextg : ∀ c ∈ p.text.map (fun c => if c = 0xa0 then 32 else c),
      glyphForChar font c < font.advanceWidths.length)
    (hx : x ∈ pySplit (p.text.map fun c => if c = 0xa0 then 32 else c))
    (hwide : PAGE_WIDTH - MARGIN_LEFT - MARGIN_RIGHT - p.indent
      < pureMeasure font x p.size) :
    ∃ r, wrapParagraph font p est = some r ∧ ∃ ind, (ind, [x]) ∈ r.1 := by
  have htne : ¬ (p.text.map (fun c => if c = 0xa0 then 32 else c) = []) := by
    intro h0
    rw [h0] at hx
    exact absurd hx (List.not_mem_nil _)
  have hgoodws : ∀ y ∈ pySplit (p.text.map fun c => if c = 0xa0 then 32 else c),
      GoodWord font y := by
    intro y hy
    obtain ⟨hne, hns⟩ := pySplitAux_facts _ [] (by simp) y hy
    refine ⟨hne, hns, ?_⟩
    intro c hc
    rcases pySplitAux_subset _ [] y hy c hc with hl | hr
    · exact htextg c hl
    · exact absurd hr (List.not_mem_nil _)
  have hgx : GoodWord font x := hgoodws x hx
  have hc0 : encConsistent font
      (if p.bullet then ensureText font est bulletMark else est) := by
    split
    · exact ensureText_consistent font bulletMark est hcons
    · exact hcons
  obtain ⟨est1, hm32, hc1⟩ := measureText_consistent font [32]
    (if p.bullet then ensureText font est bulletMark else est) p.size hc0
    (fun c hc => by
      have : c = 32 := by simpa using hc
      rw [this]
      exact hsp32) hu
  have hsp : 0 ≤ pureMeasure font [32] p.size := pureMeasure_nonneg font [32] p.size hsize
  by_cases hb : p.bullet = true
  · -- bullet paragraph: the prefix is measured too
    obtain ⟨est2, hmB, hc2⟩ := measureText_consistent font bulletMark est1 p.size hc1
      hbulg hu
    obtain ⟨r, hr, ind, hmem⟩ := wrapWords_overflow font p.size
      (pureMeasure font [32] p.size) (PAGE_WIDTH - MARGIN_LEFT - MARGIN_RIGHT)
      p.indent p.bullet x
      (pySplit (p.text.map fun c => if c = 0xa0 then 32 else c))
      { lines := [], pieces := if p.bullet then [bulletMark] else [],
        lineWidth := pureMeasure font bulletMark p.size, lineIndent := p.indent,
        availableWidth := PAGE_WIDTH - MARGIN_LEFT - MARGIN_RIGHT - p.indent }
      est2 hc2 hu hgoodws hsize hsp hx hgx hwide
      (Or.inr (by
        show stripTruthy (if p.bullet = true then [bulletMark] else []) = true
        rw [hb]
        decide))
      (pureMeasure_nonneg font bulletMark p.size hsize)
      le_rfl rfl
    refine ⟨r, ?_, ind, hmem⟩
    simp only [wrapParagraph]
    rw [if_neg htne, hm32]
    show (match (if p.bullet then measureText font est1 bulletMark p.size
        else some ((0 : ℚ), est1)) with
      | none => none
      | some (prefW, est2) =>
          wrapWords font p.size (pureMeasure font [32] p.size)
            (PAGE_WIDTH - MARGIN_LEFT - MARGIN_RIGHT) p.indent p.bullet
            (pySplit (p.text.map fun c => if c = 0xa0 then 32 else c))
            { lines := [], pieces := if p.bullet then [bulletMark] else [],
              lineWidth := prefW, lineIndent := p.indent,
              availableWidth := PAGE_WIDTH - MARGIN_LEFT - MARGIN_RIGHT - p.indent }
            est2) = some r
    rw [if_pos hb, hmB]
    exact hr
  · -- plain paragraph: the run starts empty with width 0
    obtain ⟨r, hr, ind, hmem⟩ := wrapWords_overflow font p.size
      (pureMeasure font [32] p.size) (PAGE_WIDTH - MARGIN_LEFT - MARGIN_RIGHT)
      p.indent p.bullet x
      (pySplit (p.text.map fun c => if c = 0xa0 then 32 else c))
      { lines := [], pieces := if p.bullet then [bulletMark] else [],
        lineWidth := 0, lineIndent := p.indent,
        availableWidth := PAGE_WIDTH - MARGIN_LEFT - MARGIN_RIGHT - p.indent }
      est1 hc1 hu hgoodws hsize hsp hx hgx hwide
      (Or.inl (by
        show (if p.bullet = true then [bulletMark] else []) = []
        rw [if_neg hb]))
      le_rfl le_rfl rfl
    refine ⟨r, ?_, ind, hmem⟩
    simp only [wrapParagraph]
    rw [if_neg htne, hm32]
    show (match (if p.bullet then measureText font est1 bulletMark p.size
        else some ((0 : ℚ), est1)) with
      | none => none
      | some (prefW, est2) =>
          wrapWords font p.size (pureMeasure font [32] p.size)
            (PAGE_WIDTH - MARGIN_LEFT - MARGIN_RIGHT) p.indent p.bullet
            (pySplit (p.text.map fun c => if c = 0xa0 then 32 else c))
            { lines := [], pieces := if p.bullet then [bulletMark] else [],
              lineWidth := prefW, lineIndent := p.indent,
              availableWidth := PAGE_WIDTH - MARGIN_LEFT - MARGIN_RIGHT - p.indent }
            est2) = some r
    rw [if_neg hb]
    exact hr

/-- One-glyph font for the C8 analysis: every character resolves to
glyph 0 of advance 1, units-per-em 1. -/
def c8Font : FontTables := ⟨1, 0, 0, 0, 1, 1, [1], [], 0, 0, 0, 0, 0, 0, 0, 0⟩

/-- Paragraph `"a b"` at size `-1`, indented past the page width. -/
def c8Par : Paragraph := { text := [97, 32, 98], size := -1, indent := 485 }

def c8St1 : FontEncSt := ⟨[32], [32], [(32, 0)], [0]⟩

def c8St2 : FontEncSt := ⟨[32, 97], [32, 97], [(32, 0), (97, 0)], [0]⟩

def c8St3 : FontEncSt := ⟨[32, 97, 98], [32, 97, 98], [(32, 0), (97, 0), (98, 0)], [0]⟩

theorem c8_space : measureText c8Font initEnc [32] (-1) = some (-1, c8St1) := by
  rw [measureText_eval c8Font initEnc c8St1 [32] (-1) 1 (by decide) (by decide)]
  norm_num [c8Font]

theorem c8_a : measureText c8Font c8St1 [97] (-1) = some (-1, c8St2) := by
  rw [measureText_eval c8Font c8St1 c8St2 [97] (-1) 1 (by decide) (by decide)]
  norm_num [c8Font]

theorem c8_b : measureText c8Font c8St2 [98] (-1) = some (-1, c8St3) := by
  rw [measureText_eval c8Font c8St2 c8St3 [98] (-1) 1 (by decide) (by decide)]
  norm_num [c8Font]

theorem c8_wrap_eval :
    wrapParagraph c8Font c8Par initEnc = some ([(485, [[97], [32], [98]])], c8St3) := by
  simp only [wrapParagraph]
  rw [show (c8Par.text.map fun c => if c = 0xa0 then 32 else c) = [97, 32, 98] from by decide]
  rw [if_neg (by decide : ¬ ([97, 32, 98] : List Nat) = [])]
  rw [show pySplit [97, 32, 98] = [[97], [98]] from by decide]
  rw [if_neg (by decide : ¬ c8Par.bullet = true)]
  rw [show c8Par.size = (-1 : ℚ) from rfl]
  rw [c8_space]
  show (match (if c8Par.bullet = true then measureText c8Font c8St1 bulletMark (-1 : ℚ)
      else some ((0 : ℚ), c8St1)) with
    | none => none
    | some (prefW, est2) =>
        wrapWords c8Font (-1 : ℚ) (-1) (PAGE_WIDTH - MARGIN_LEFT - MARGIN_RIGHT)
          c8Par.indent c8Par.bullet [[97], [98]]
          { lines := [], pieces := if c8Par.bullet = true then [bulletMark] else [],
            lineWidth := prefW, lineIndent := c8Par.indent,
            availableWidth := PAGE_WIDTH - MARGIN_LEFT - MARGIN_RIGHT - c8Par.indent }
          est2) = some ([(485, [[97], [32], [98]])], c8St3)
  rw [if_neg (by decide : ¬ c8Par.bullet = true)]
  show wrapWords c8Font (-1 : ℚ) (-1) (PAGE_WIDTH - MARGIN_LEFT - MARGIN_RIGHT)
      c8Par.indent c8Par.bullet [[97], [98]]
      { lines := [], pieces := [], lineWidth := 0, lineIndent := c8Par.indent,
        availableWidth := PAGE_WIDTH - MARGIN_LEFT - MARGIN_RIGHT - c8Par.indent }
      c8St1 = some ([(485, [[97], [32], [98]])], c8St3)
  simp only [wrapWords, c8_a]
  rw [if_pos (Or.inr (by decide))]
  simp only [wrapWords, c8_b]
  rw [if_pos (Or.inl (by
    norm_num [stripTruthy, isPySpace, PAGE_WIDTH, MARGIN_LEFT, MARGIN_RIGHT, c8Par]))]
  rw [if_pos (by norm_num [stripTruthy, isPySpace])]
  norm_num [stripTruthy, isPySpace, c8Par]

/-- C8 counterexample: at size `-1` the word `"a"` measures `-1`, which
exceeds the available width `483.28 - 485 = -1.72`, yet the next word
joins its line (`projected = -3 ≤ -1.72`), so the overflowing word is
not the sole word of its line — refuting the claim for paragraphs with
negative sizes. -/
theorem unsplittable_overflow_cex :
    pySplit (c8Par.text.map fun c => if c = 0xa0 then 32 else c) = [[97], [98]] ∧
    pureMeasure c8Font [97] c8Par.size = -1 ∧
    PAGE_WIDTH - MARGIN_LEFT - MARGIN_RIGHT - c8Par.indent < -1 ∧
    wrapParagraph c8Font c8Par initEnc = some ([(485, [[97], [32], [98]])], c8St3) ∧
    (∀ line ∈ [((485 : ℚ), [[97], [32], [98]])], line.2 ≠ [[97]]) := by
  refine ⟨by decide, ?_, ?_, c8_wrap_eval, ?_⟩
  · show ((pureWidth c8Font [97] : Nat) : ℚ) / (c8Font.unitsPerEm : ℚ) * c8Par.size = -1
    rw [show pureWidth c8Font [97] = 1 from by decide]
    norm_num [c8Font, c8Par]
  · norm_num [PAGE_WIDTH, MARGIN_LEFT, MARGIN_RIGHT, c8Par]
  · intro line hline
    have : line = ((485 : ℚ), [[97], [32], [98]]) := by simpa using hline
    rw [this]
    decide

/-- Font and paragraph for the witness: size 10, advance 600,
units-per-em 1000, so a 100-character word measures 6000 points. -/
def c8WFont : FontTables := ⟨1000, 0, 0, 0, 1, 1, [600], [], 0, 0, 0, 0, 0, 0, 0, 0⟩

def c8WPar : Paragraph := { text := List.replicate 100 97, size := 10 }

/-- Witness for the amended C8: a 6000-point word on a 483.28-point
line is placed alone and the wrap succeeds. -/
theorem unsplittable_overflow_witness :
    ∃ r, wrapParagraph c8WFont c8WPar initEnc = some r ∧
      ∃ ind, (ind, [List.replicate 100 97]) ∈ r.1 := by
  apply unsplittable_overflow c8WFont c8WPar initEnc (List.replicate 100 97)
  · exact ⟨fun p hp => absurd hp (List.not_mem_nil _), fun c hc => absurd hc (List.not_mem_nil _)⟩
  · decide
  · norm_num [c8WPar]
  · decide
  · decide
  · intro c _
    show (dget c8WFont.cmap c).getD 0 < 1
    rw [show dget c8WFont.cmap c = none from rfl]
    decide
  · decide
  · show PAGE_WIDTH - MARGIN_LEFT - MARGIN_RIGHT - c8WPar.indent
      < ((pureWidth c8WFont (List.replicate 100 97) : Nat) : ℚ)
        / (c8WFont.unitsPerEm : ℚ) * c8WPar.size
    rw [show pureWidth c8WFont (List.replicate 100 97) = 60000 from by decide]
    norm_num [PAGE_WIDTH, MARGIN_LEFT, MARGIN_RIGHT, c8WFont, c8WPar]

end TechDigest
